import Mathlib

/-!
# Verification of the SuperAgent context-management core

Shallow embedding of `src/core/compaction.py` and `src/core/loop.py`.

Modelling conventions:
* A message (a Python dict) is the structure `Msg`; absent keys are modelled
  by default values (`""` for strings, `[]` for lists), which the source code
  treats identically to absent keys everywhere it reads them
  (`msg.get("content", "")`, truthiness tests, ...).
* Message content is either a plain string or a list of parts
  (`Content.str` / `Content.parts`); a part is a dict with a `type` key, an
  optional `text` key and an optional `cache_control` key, modelled by the
  structure `Part` (presence of `cache_control` is the Boolean `cache`).
* Python integers are `Nat`/`Int` (they are unbounded in Python).
* The nested LLM summarization call inside `run_compaction` is an oracle of
  type `Except Unit String`: `.error ()` is "the call raised",
  `.ok s` is "the call returned text `s`" (`response.text or ""`).
* Logging (`_log`) is side-effect-only and is dropped.
-/

set_option linter.unusedVariables false
set_option maxRecDepth 16384

namespace TopAgent

structure Part where
  ptype : String
  text : String := ""
  cache : Bool := false
deriving DecidableEq

inductive Content where
  | str : String → Content
  | parts : List Part → Content
deriving DecidableEq

structure ToolCall where
  id : String := ""
  name : String := ""
  arguments : String := ""
deriving DecidableEq

structure Msg where
  role : String
  content : Content := Content.str ""
  tool_calls : List ToolCall := []
  tool_call_id : String := ""
deriving DecidableEq

/-! ## Constants (compaction.py lines 25-42, 373-374) -/

def APPROX_CHARS_PER_TOKEN : Nat := 4

def MODEL_CONTEXT_LIMIT : Nat := 200000

def OUTPUT_TOKEN_MAX : Nat := 32000

/-- `AUTO_COMPACT_THRESHOLD = 0.6` in the source.  Python evaluates this as an
IEEE-754 double; the double nearest to 0.6 is exactly
`5404319552844595 / 2^53` (strictly less than 3/5; doubles in `[1/2, 1)` are
spaced `2^-53` apart, and `AUTO_COMPACT_THRESHOLD_nearest` proves this grid
point is the strictly nearest one to 3/5). -/
def AUTO_COMPACT_THRESHOLD : ℚ := 5404319552844595 / 9007199254740992

def SUMMARY_TOKEN_ESTIMATE : Nat := 4096

def PRUNE_PROTECT : Nat := 40000

def PRUNE_MINIMUM : Nat := 20000

def PRUNE_MARKER : String := "[Old tool result content cleared]"

def MAX_IMAGES_PER_REQUEST : Nat := 100

def IMAGE_PRUNE_TARGET : Nat := 10

def IMAGE_PRUNE_MARKER : String := "[Old image content cleared]"

def SUMMARY_PREFIX : String := "Another language model started to solve this problem and produced a summary of its thinking process. You also have access to the state of the tools that were used. Use this to build on the work that has already been done and avoid duplicating work.\n\nHere is the summary from the previous context:\n\n"

def PROTECTED_MESSAGE_COUNT : Nat := 2

/-! ## Token estimation (compaction.py lines 68-104) -/

/-- `estimate_tokens(text)`: `max(0, len(text or "") // APPROX_CHARS_PER_TOKEN)` -/
def estimate_tokens (text : String) : Nat :=
  max 0 (text.length / APPROX_CHARS_PER_TOKEN)

/-- Content tokens of `estimate_message_tokens`: a string contributes its
estimate; a part list contributes, per dict part, the estimate of its
(`""`-defaulted) `text` plus 1000 if its `type` is `"image_url"`. -/
def contentTokens : Content → Nat
  | Content.str s => estimate_tokens s
  | Content.parts l =>
      l.foldl (fun t p =>
        t + estimate_tokens p.text + (if p.ptype = "image_url" then 1000 else 0)) 0

/-- `estimate_message_tokens(msg)` (compaction.py lines 73-99). -/
def estimate_message_tokens (msg : Msg) : Nat :=
  let tokens := contentTokens msg.content
  let tokens := msg.tool_calls.foldl
    (fun t tc => t + estimate_tokens tc.name + estimate_tokens tc.arguments) tokens
  tokens + 4

/-- `estimate_total_tokens(messages)`. -/
def estimate_total_tokens (messages : List Msg) : Nat :=
  (messages.map estimate_message_tokens).sum

/-! ## Overflow detection (compaction.py lines 111-125) -/

def get_usable_context : Nat := MODEL_CONTEXT_LIMIT - OUTPUT_TOKEN_MAX

/-- The IEEE-754 double product `usable * AUTO_COMPACT_THRESHOLD` computed in
`is_overflow`.  The exact rational product
`168000 * (5404319552844595/2^53) = 100800 - 33600/2^53` is not itself a
double: in the binade `[2^16, 2^17)` doubles are spaced `2^-36 = 131072/2^53`
apart, and the offset `33600/2^53` is under the half-spacing `65536/2^53`, so
the product rounds (to nearest) to exactly `100800.0`.
`usable_times_threshold_nearest` proves `100800` is the strictly nearest point
of that grid, so no tie-breaking is involved. -/
def usable_times_threshold : ℚ := 100800

/-- `is_overflow(total_tokens)` at the default threshold (all call sites use
the default): `total_tokens > usable * threshold`, where the right-hand side
is the IEEE-754 double product (`usable_times_threshold`) and Python compares
the int `total_tokens` against that float exactly. -/
def is_overflow (total_tokens : Nat) : Bool :=
  (total_tokens : ℚ) > usable_times_threshold

/-! ## Tool output pruning (compaction.py lines 138-218) -/

/-- Python `len(content or "")` where `content` may be a string or a part
list (duck typing in `estimate_tokens(content)`). -/
def contentLen : Content → Nat
  | Content.str s => s.length
  | Content.parts l => l.length

def contentEstimate (c : Content) : Nat :=
  max 0 (contentLen c / APPROX_CHARS_PER_TOKEN)

/-- Python `content == PRUNE_MARKER` (a list never equals a string). -/
def isMarkerContent (c : Content) : Bool :=
  c = Content.str PRUNE_MARKER

/-- The backward scan of `prune_old_tool_outputs` (lines 162-195):
`for msg_index in range(len(messages) - 1, -1, -1)` with state
`(total, pruned, turns, to_prune)`.  The first argument `k` is one more
than the index currently being examined, so the call with
`k = messages.length` scans the whole list.  Returns `(pruned, to_prune)`;
a tool message already carrying the marker breaks out of the loop. -/
def pruneScan (messages : List Msg) (protect_last_turns : Nat) :
    Nat → Nat → Nat → Nat → List Nat → (Nat × List Nat)
  | 0, _, pruned, _, to_prune => (pruned, to_prune)
  | (k+1), total, pruned, turns, to_prune =>
    match messages.get? k with
    | none => (pruned, to_prune)
    | some msg =>
      let turns' := if msg.role = "user" then turns + 1 else turns
      if turns' < protect_last_turns then
        pruneScan messages protect_last_turns k total pruned turns' to_prune
      else if msg.role = "tool" then
        if isMarkerContent msg.content then (pruned, to_prune)
        else
          let e := contentEstimate msg.content
          if total + e > PRUNE_PROTECT then
            pruneScan messages protect_last_turns k (total + e) (pruned + e) turns' (k :: to_prune)
          else
            pruneScan messages protect_last_turns k (total + e) pruned turns' to_prune
      else
        pruneScan messages protect_last_turns k total pruned turns' to_prune

/-- Lines 207-216: `for i, msg in enumerate(messages)`, replacing the content
of every message whose index is in the prune set with `PRUNE_MARKER`. -/
def applyPruneMarks (indices_to_prune : List Nat) : Nat → List Msg → List Msg
  | _, [] => []
  | i, msg :: rest =>
      (if i ∈ indices_to_prune then { msg with content := Content.str PRUNE_MARKER } else msg)
        :: applyPruneMarks indices_to_prune (i+1) rest

/-- `prune_old_tool_outputs(messages, protect_last_turns=2)`. -/
def prune_old_tool_outputs (messages : List Msg) (protect_last_turns : Nat := 2) : List Msg :=
  if messages = [] then messages
  else
    let scanned := pruneScan messages protect_last_turns messages.length 0 0 0 []
    if scanned.1 ≤ PRUNE_MINIMUM then messages
    else applyPruneMarks scanned.2 0 messages

/-! ## Image pruning (compaction.py lines 225-367) -/

/-- `count_images_in_message(msg)`: dict parts whose `type` is `"image_url"`
or `"image"`. -/
def count_images_in_message (msg : Msg) : Nat :=
  match msg.content with
  | Content.str _ => 0
  | Content.parts l =>
      l.foldl (fun c p => if p.ptype = "image_url" ∨ p.ptype = "image" then c + 1 else c) 0

def count_total_images (messages : List Msg) : Nat :=
  (messages.map count_images_in_message).sum

/-- `is_image_analyzed(messages, image_msg_index)`: some later message has
role `"assistant"`. -/
def is_image_analyzed (messages : List Msg) (image_msg_index : Nat) : Bool :=
  (messages.drop (image_msg_index + 1)).any (fun m => m.role = "assistant")

/-- Lines 287-292: `(index, analyzed, img_count)` for every message holding at
least one image, in transcript order (`i` is the index of the head of `rest`
in the full list `messages`). -/
def imageEntriesLoop (messages : List Msg) : Nat → List Msg → List (Nat × Bool × Nat)
  | _, [] => []
  | i, msg :: rest =>
      (if count_images_in_message msg > 0 then
        [(i, is_image_analyzed messages i, count_images_in_message msg)]
      else []) ++ imageEntriesLoop messages (i+1) rest

def image_msg_indices (messages : List Msg) : List (Nat × Bool × Nat) :=
  imageEntriesLoop messages 0 messages

/-- Pass 1 (lines 317-322): walk entries oldest-first, breaking once enough
images are removed, collecting analyzed messages. -/
def imagePassOne (images_to_remove : Nat) :
    List (Nat × Bool × Nat) → Nat → List Nat → (Nat × List Nat)
  | [], removed, acc => (removed, acc)
  | (idx, analyzed, cnt) :: rest, removed, acc =>
      if removed ≥ images_to_remove then (removed, acc)
      else if analyzed then imagePassOne images_to_remove rest (removed + cnt) (acc ++ [idx])
      else imagePassOne images_to_remove rest removed acc

/-- Pass 2 (lines 327-332): same walk over unanalyzed entries not already
selected. -/
def imagePassTwo (images_to_remove : Nat) :
    List (Nat × Bool × Nat) → Nat → List Nat → (Nat × List Nat)
  | [], removed, acc => (removed, acc)
  | (idx, analyzed, cnt) :: rest, removed, acc =>
      if removed ≥ images_to_remove then (removed, acc)
      else if analyzed = false ∧ idx ∉ acc then
        imagePassTwo images_to_remove rest (removed + cnt) (acc ++ [idx])
      else imagePassTwo images_to_remove rest removed acc

/-- The final `indices_to_prune` of `prune_old_images` together with the
`removed` counter, for a transcript already known to be over `max_images`. -/
def imagePruneSelection (messages : List Msg) (max_images : Nat) : Nat × List Nat :=
  let total_images := count_total_images messages
  let entries := image_msg_indices messages
  let images_to_remove := total_images - max_images
  let over_hard_limit := total_images > MAX_IMAGES_PER_REQUEST
  let images_to_remove :=
    if over_hard_limit then max images_to_remove (total_images - (MAX_IMAGES_PER_REQUEST - 5))
    else images_to_remove
  let p1 := imagePassOne images_to_remove entries 0 []
  if p1.1 < images_to_remove ∧ over_hard_limit then
    imagePassTwo images_to_remove entries p1.1 p1.2
  else p1

/-- Lines 352-364: replace every image part of a selected message by a text
placeholder part. -/
def stripImageParts (l : List Part) : List Part :=
  l.map (fun p =>
    if p.ptype = "image_url" ∨ p.ptype = "image" then
      { ptype := "text", text := IMAGE_PRUNE_MARKER }
    else p)

def applyImagePrune (indices_to_prune : List Nat) : Nat → List Msg → List Msg
  | _, [] => []
  | i, msg :: rest =>
      (if i ∈ indices_to_prune then
        match msg.content with
        | Content.str _ => msg
        | Content.parts l => { msg with content := Content.parts (stripImageParts l) }
      else msg) :: applyImagePrune indices_to_prune (i+1) rest

/-- Total image count of the messages whose (global) index is selected, the
position of the head of the list being `n`.  Proof-side accounting device for
`prune_old_images`. -/
def selectedImageCount (P : List Nat) : Nat → List Msg → Nat
  | _, [] => 0
  | n, msg :: rest =>
      (if n ∈ P then count_images_in_message msg else 0) + selectedImageCount P (n+1) rest

/-- `prune_old_images(messages, max_images=IMAGE_PRUNE_TARGET)`. -/
def prune_old_images (messages : List Msg) (max_images : Nat := IMAGE_PRUNE_TARGET) : List Msg :=
  let total_images := count_total_images messages
  if total_images ≤ max_images then messages
  else
    let sel := imagePruneSelection messages max_images
    if sel.2 = [] then messages
    else applyImagePrune sel.2 0 messages

/-! ## AI compaction (compaction.py lines 377-591) -/

/-- Assistant indices in the compactable section (lines 416-419): global
index `PROTECTED_MESSAGE_COUNT + i` for each assistant-role element of
`compactable`. -/
def assistantIdxLoop : Nat → List Msg → List Nat
  | _, [] => []
  | i, msg :: rest =>
      (if msg.role = "assistant" then [PROTECTED_MESSAGE_COUNT + i] else [])
        ++ assistantIdxLoop (i+1) rest

/-- The `for k in range(len(assistant_indices) - 1)` search (lines 427-433):
first candidate start whose kept suffix fits in `max_kept_tokens`. -/
def pickStartLoop (messages : List Msg) (max_kept_tokens : Int) : List Nat → Option Nat
  | [] => none
  | start :: rest =>
      if (estimate_total_tokens (messages.drop start) : Int) ≤ max_kept_tokens then some start
      else pickStartLoop messages max_kept_tokens rest

/-- `_find_messages_to_compact(messages, target_tokens)` (lines 377-438). -/
def find_messages_to_compact (messages : List Msg) (target_tokens : Int) : List Nat :=
  let protected_messages := messages.take PROTECTED_MESSAGE_COUNT
  let compactable := messages.drop PROTECTED_MESSAGE_COUNT
  let protected_tokens := estimate_total_tokens protected_messages
  let compactable_tokens := estimate_total_tokens compactable
  let total_tokens := protected_tokens + compactable_tokens
  if (total_tokens : Int) ≤ target_tokens then []
  else
    let max_kept_tokens : Int := target_tokens - protected_tokens - SUMMARY_TOKEN_ESTIMATE
    let assistant_indices := assistantIdxLoop 0 compactable
    if assistant_indices.length < 2 then []
    else
      match pickStartLoop messages max_kept_tokens assistant_indices.dropLast with
      | some start => List.range' PROTECTED_MESSAGE_COUNT (start - PROTECTED_MESSAGE_COUNT)
      | none =>
          let last_valid_start := assistant_indices.getD (assistant_indices.length - 2) 0
          List.range' PROTECTED_MESSAGE_COUNT (last_valid_start - PROTECTED_MESSAGE_COUNT)

/-- Truthiness of message content (`if content and content != PRUNE_MARKER`). -/
def contentTruthy : Content → Bool
  | Content.str s => !s.isEmpty
  | Content.parts l => !l.isEmpty

/-- The textual rendering of content interpolated into
`f"[Previous tool output]\n{content}"`.  For string content this is the
string itself; for structured content Python would interpolate the list
repr, which we abstract as `""` (no claim depends on that rendering). -/
def pyContentString : Content → String
  | Content.str s => s
  | Content.parts _ => ""

/-- Valid tool-call ids collected from assistant messages
(lines 454-461); `if tc_id:` is the truthiness test `id ≠ ""`. -/
def collect_valid_tool_call_ids (messages : List Msg) : List String :=
  messages.foldl (fun acc msg =>
    if msg.role = "assistant" then
      msg.tool_calls.foldl (fun a tc => if tc.id ≠ "" then a ++ [tc.id] else a) acc
    else acc) []

/-- The per-message transform of `_remove_orphaned_tool_messages`
(lines 463-481): orphaned tool messages with useful content become user
messages, useless ones are dropped, everything else passes through. -/
def repairMsg (valid : List String) (msg : Msg) : Option Msg :=
  if msg.role = "tool" then
    if msg.tool_call_id ≠ "" ∧ msg.tool_call_id ∉ valid then
      if contentTruthy msg.content ∧ ¬ isMarkerContent msg.content then
        some { role := "user",
               content := Content.str ("[Previous tool output]\n" ++ pyContentString msg.content) }
      else none
    else some msg
  else some msg

def remove_orphaned_tool_messages (messages : List Msg) : List Msg :=
  messages.filterMap (repairMsg (collect_valid_tool_call_ids messages))

/-- Default `target_tokens` of `run_compaction`:
`int(get_usable_context() * 0.45)`, which Python evaluates in IEEE-754
double arithmetic to exactly 75600. -/
def DEFAULT_COMPACTION_TARGET : Int := 75600

/-- The synthetic user message wrapping a compaction summary
(lines 575-578). -/
def summaryMsg (summary : String) : Msg :=
  { role := "user", content := Content.str (SUMMARY_PREFIX ++ summary) }

/-- `run_compaction(llm, messages, system_prompt, model, target_tokens)`
(lines 486-591).  The nested `llm.chat` call is the oracle `llm`
(`.error ()` = the call raised; `.ok s` = `response.text or ""` was `s`).
The construction of `compaction_messages` (the prompt sent to the oracle)
does not influence the returned transcript and is omitted. -/
def run_compaction (llm : Except Unit String) (messages : List Msg)
    (system_prompt : String) (model : Option String := none)
    (target_tokens : Option Int := none) : List Msg :=
  let target := target_tokens.getD DEFAULT_COMPACTION_TARGET
  let compact_ids := find_messages_to_compact messages target
  if compact_ids = [] then messages
  else
    let protected_messages := messages.take PROTECTED_MESSAGE_COUNT
    let messages_to_keep :=
      (List.range' PROTECTED_MESSAGE_COUNT (messages.length - PROTECTED_MESSAGE_COUNT)).filterMap
        (fun i => if i ∈ compact_ids then none else messages.get? i)
    match llm with
    | Except.error _ => messages
    | Except.ok summary =>
        if summary = "" then messages
        else
          remove_orphaned_tool_messages
            (protected_messages ++ [summaryMsg summary] ++ messages_to_keep)

/-! ## Context manager (compaction.py lines 597-657) -/

/-- `manage_context(messages, system_prompt, llm, force_compaction)`. -/
def manage_context (messages : List Msg) (system_prompt : String)
    (llm : Except Unit String) (force_compaction : Bool := false) : List Msg :=
  let messages :=
    if count_total_images messages > IMAGE_PRUNE_TARGET then prune_old_images messages
    else messages
  let total_tokens := estimate_total_tokens messages
  if force_compaction = false ∧ is_overflow total_tokens = false then messages
  else
    let pruned := prune_old_tool_outputs messages
    let pruned_tokens := estimate_total_tokens pruned
    if is_overflow pruned_tokens = false ∧ force_compaction = false then pruned
    else run_compaction llm pruned system_prompt

/-! ## Prompt caching (loop.py lines 69-174) -/

/-- Index (from the end) of the last dict part with `type == "text"` and
truthy `text` — the part that receives the `cache_control` annotation
(loop.py lines 85-90). -/
def lastTruthyTextIdx : List Part → Option Nat
  | [] => none
  | p :: rest =>
      match lastTruthyTextIdx rest with
      | some j => some (j + 1)
      | none => if p.ptype = "text" ∧ p.text ≠ "" then some 0 else none

/-- `new_content[i] = {**part, "cache_control": cache_control}`. -/
def setPartCache : Nat → List Part → List Part
  | _, [] => []
  | 0, p :: rest => { p with cache := true } :: rest
  | (n+1), p :: rest => p :: setPartCache n rest

/-- `_add_cache_control_to_message(msg, cache_control)` (loop.py lines 69-108).
The annotation value `{"type": "ephemeral"}` is constant and is modelled as
the Boolean `cache` flag on a part. -/
def add_cache_control_to_message (msg : Msg) : Msg :=
  match msg.content with
  | Content.parts content =>
      if content.any (fun p => p.cache) then msg
      else
        match lastTruthyTextIdx content with
        | some i => { msg with content := Content.parts (setPartCache i content) }
        | none => { msg with content := Content.parts content }
  | Content.str content =>
      if content = "" then msg
      else { msg with content := Content.parts [{ ptype := "text", text := content, cache := true }] }

/-- One pass over `enumerate(messages)` collecting system / non-system
indices (loop.py lines 140-144). -/
def splitRoleIdx : Nat → List Msg → (List Nat × List Nat)
  | _, [] => ([], [])
  | i, msg :: rest =>
      let p := splitRoleIdx (i+1) rest
      if msg.role = "system" then (i :: p.1, p.2) else (p.1, i :: p.2)

/-- Apply a transform at a set of indices (`for i, msg in enumerate(messages)`
with membership test), used by both `_apply_caching` and the prune passes. -/
def applyAtIndices (S : List Nat) (f : Msg → Msg) : Nat → List Msg → List Msg
  | _, [] => []
  | i, msg :: rest =>
      (if i ∈ S then f msg else msg) :: applyAtIndices S f (i+1) rest

/-- The `indices_to_cache` set of `_apply_caching`: first ≤2 system indices
plus last ≤2 non-system indices. -/
def cacheIndexSet (messages : List Msg) : List Nat :=
  let p := splitRoleIdx 0 messages
  p.1.take 2 ++ p.2.drop (p.2.length - 2)

/-- `_apply_caching(messages, enabled=True)` (loop.py lines 110-174). -/
def apply_caching (messages : List Msg) (enabled : Bool := true) : List Msg :=
  if enabled = false ∨ messages = [] then messages
  else applyAtIndices (cacheIndexSet messages) add_cache_control_to_message 0 messages

/-! ## LLM retry loop and per-iteration outcome (loop.py lines 278-365) -/

inductive TError where
  | costLimit : TError
  | llmErr : String → TError
  | unexpected : TError
deriving DecidableEq

structure Resp where
  text : String := ""
deriving DecidableEq

/-- Whether the retry loop retries after error `e` (lines 313-348):
`CostLimitExceeded` is re-raised, `LLMError` with an authentication code is
re-raised, any other error is retried while attempts remain. -/
def shouldRetry : TError → Bool
  | TError.costLimit => false
  | TError.llmErr code => ¬ (code = "authentication_error" ∨ code = "invalid_api_key")
  | TError.unexpected => true

/-- The `for attempt in range(1, max_retries + 1)` loop (lines 282-348),
with `transport attempt` the outcome of `llm.chat` on that attempt. -/
def attemptLoop (transport : Nat → Except TError Resp) (max_retries : Nat) :
    Nat → Except TError Resp
  | attempt =>
    match transport attempt with
    | Except.ok r => Except.ok r
    | Except.error e =>
        if h : shouldRetry e ∧ attempt < max_retries then
          attemptLoop transport max_retries (attempt + 1)
        else Except.error e
termination_by attempt => max_retries - attempt
decreasing_by exact Nat.sub_lt_sub_left h.2 (Nat.lt_succ_self attempt)

def llm_call_with_retry (transport : Nat → Except TError Resp) : Except TError Resp :=
  attemptLoop transport 5 1

/-- What one iteration of the main loop does with the retry result
(lines 350-365): `CostLimitExceeded` emits `turn.failed` and returns
(the loop stops); any other exception emits `turn.failed` and `continue`s
(the loop proceeds to the next iteration). -/
inductive IterResult where
  | gotResponse : Resp → IterResult
  | turnFailedStop : IterResult
  | turnFailedContinue : IterResult
deriving DecidableEq

def iteration_outcome (transport : Nat → Except TError Resp) : IterResult :=
  match llm_call_with_retry transport with
  | Except.ok r => IterResult.gotResponse r
  | Except.error TError.costLimit => IterResult.turnFailedStop
  | Except.error (TError.llmErr _) => IterResult.turnFailedContinue
  | Except.error TError.unexpected => IterResult.turnFailedContinue

/-! ## Appending tool results (loop.py lines 438-546) -/

structure ToolExecResult where
  id : String
  tool_name : String
  output : String
  invalid : Bool
deriving DecidableEq

/-- The tool message appended for one result (lines 536-541). -/
def toolResultMsg (r : ToolExecResult) : Msg :=
  { role := "tool", tool_call_id := r.id, content := Content.str r.output }

/-- The guidance user message appended right after an invalid tool result
(lines 542-546). -/
def invalidGuidanceMsg (r : ToolExecResult) : Msg :=
  { role := "user",
    content := Content.str ("The tool '" ++ r.tool_name ++ "' was called with invalid parameters. Please review the error above and return a corrected tool call with all required parameters properly specified.") }

/-- Lines 535-546: `for tool_result in tool_results:` append the tool
message, then — if the result was flagged invalid — a user guidance
message. -/
def append_tool_results (messages : List Msg) (tool_results : List ToolExecResult) : List Msg :=
  tool_results.foldl
    (fun msgs r => (msgs ++ [toolResultMsg r]) ++ (if r.invalid then [invalidGuidanceMsg r] else []))
    messages

/-- Lines 438-546 in one step: append the assistant message carrying the
tool calls, then all tool results. -/
def append_assistant_and_tool_results (messages : List Msg) (assistant_msg : Msg)
    (tool_results : List ToolExecResult) : List Msg :=
  append_tool_results (messages ++ [assistant_msg]) tool_results

/-! ## Spec-side token-estimate formula (for the refinement claim about the
token estimator).  These three definitions follow the spec's words — "sums
estimated tokens of all text parts, adds a flat 1000-token charge per image
part, adds estimated tokens of every tool-call name+argument blob, and adds a
fixed per-message role overhead (4)" — with "image part" read as the parts
the implementation actually charges for (`type == "image_url"`). -/

def textTokensSum : Content → Nat
  | Content.str s => estimate_tokens s
  | Content.parts l => (l.map (fun p => estimate_tokens p.text)).sum

def imageUrlPartCount : Content → Nat
  | Content.str _ => 0
  | Content.parts l => (l.filter (fun p => p.ptype = "image_url")).length

def toolCallTokens (msg : Msg) : Nat :=
  (msg.tool_calls.map (fun tc => estimate_tokens tc.name + estimate_tokens tc.arguments)).sum

/-! ## Concrete transcripts used by witnesses and counterexamples -/

/-- A message whose single part has `type == "image"`: counted as an image by
`count_images_in_message` but **not** charged 1000 tokens by
`estimate_message_tokens` (which only charges `type == "image_url"`). -/
def imageTypedMsg : Msg :=
  { role := "user", content := Content.parts [{ ptype := "image" }] }

/-- A 403120-character string: `estimate_tokens` gives 100780 tokens. -/
def bigText : String := String.mk (List.replicate 403120 'a')

/-- A five-message transcript whose estimated total is exactly
`20 + 403120/4 = 100800 = usable × 0.6` tokens and which contains no image,
no tool message, and three assistant messages in the compactable region. -/
def boundaryTranscript : List Msg :=
  [ { role := "system" }, { role := "user" },
    { role := "assistant", content := Content.str bigText },
    { role := "assistant" }, { role := "assistant" } ]

/-- Small transcript for the compaction witness: two protected messages and
three assistant messages. -/
def compactionWitnessTranscript : List Msg :=
  [ { role := "system", content := Content.str "s" },
    { role := "user", content := Content.str "i" },
    { role := "assistant", content := Content.str "a1" },
    { role := "assistant", content := Content.str "a2" },
    { role := "assistant", content := Content.str "a3" } ]

/-- A message holding 101 image parts and followed by no assistant message
(so all of its images are unanalyzed). -/
def manyImagesTranscript : List Msg :=
  [ { role := "user", content := Content.parts (List.replicate 101 { ptype := "image_url" }) } ]

/-- An assistant message announcing two tool calls, the first of which will
report invalid parameters. -/
def twoCallAssistantMsg : Msg :=
  { role := "assistant", tool_calls := [{ id := "call_1", name := "alpha" }, { id := "call_2", name := "beta" }] }

def invalidFirstResult : ToolExecResult :=
  { id := "call_1", tool_name := "alpha", output := "bad args", invalid := true }

def okSecondResult : ToolExecResult :=
  { id := "call_2", tool_name := "beta", output := "fine", invalid := false }

/-- Transcript for the tool-output-pruner witness: one protected user turn,
then a tool message. -/
def smallPruneTranscript : List Msg :=
  [ { role := "user", content := Content.str "do it" },
    { role := "assistant" },
    { role := "tool", tool_call_id := "c1", content := Content.str "result" },
    { role := "user", content := Content.str "next" } ]

/-- Transcript for the caching witness: a system message, an empty-content
user message and a non-empty user message. -/
def smallCacheTranscript : List Msg :=
  [ { role := "system", content := Content.str "sys" },
    { role := "user", content := Content.str "" },
    { role := "user", content := Content.str "hello" } ]

/-! # Theorems -/

/-! ## General helper lemmas -/

theorem foldl_add_map_sum {α : Type} (f : α → Nat) :
    ∀ (l : List α) (n : Nat), l.foldl (fun t p => t + f p) n = n + (l.map f).sum := by
  intro l
  induction l with
  | nil => intro n; simp
  | cons p rest ih => intro n; simp [List.foldl_cons, ih]; omega

theorem nodup_subset_length_le (l s : List Nat) (h1 : l.Nodup) (h2 : l ⊆ s) :
    l.length ≤ s.length := by
  have hc : l.toFinset.card = l.length := List.toFinset_card_of_nodup h1
  have hsub : l.toFinset ⊆ s.toFinset := by
    intro x hx
    rw [List.mem_toFinset] at *
    exact h2 hx
  have h3 := Finset.card_le_card hsub
  have h4 := s.toFinset_card_le
  omega

/-- `AUTO_COMPACT_THRESHOLD` is a point of the `2^-53` grid of doubles in
`[1/2, 1)`. -/
theorem AUTO_COMPACT_THRESHOLD_repr :
    AUTO_COMPACT_THRESHOLD = ((5404319552844595 : ℤ) : ℚ) / 2 ^ 53 := by
  rw [AUTO_COMPACT_THRESHOLD]
  norm_num

/-- `5404319552844595/2^53` is the strictly nearest point of the `2^-53`
double grid to the source literal `0.6 = 3/5` (the exact value
`3/5 = (5404319552844595 + 1/5)/2^53` is a fifth of a grid step above it, so
rounding to nearest picks it with no tie). -/
theorem AUTO_COMPACT_THRESHOLD_nearest (n : ℤ)
    (h : (n : ℚ) / 2 ^ 53 ≠ AUTO_COMPACT_THRESHOLD) :
    |AUTO_COMPACT_THRESHOLD - 3 / 5| < |(n : ℚ) / 2 ^ 53 - 3 / 5| := by
  have hn : n ≠ 5404319552844595 := by
    intro he
    apply h
    rw [he, AUTO_COMPACT_THRESHOLD]
    norm_num
  have hL : |AUTO_COMPACT_THRESHOLD - 3 / 5| = 1 / (5 * 2 ^ 53) := by
    rw [AUTO_COMPACT_THRESHOLD, abs_of_neg (by norm_num)]
    norm_num
  rw [hL]
  rcases lt_or_gt_of_ne hn with hlt | hgt
  · have hle : (n : ℚ) ≤ 5404319552844594 := by
      have h2 : n ≤ 5404319552844594 := by omega
      exact_mod_cast h2
    refine lt_abs.mpr (Or.inr ?_)
    linarith
  · have hge : (5404319552844596 : ℚ) ≤ (n : ℚ) := by
      have h2 : (5404319552844596 : ℤ) ≤ n := by omega
      exact_mod_cast h2
    refine lt_abs.mpr (Or.inl ?_)
    linarith

/-- `usable_times_threshold` is a point of the `2^-36` grid of doubles in
`[2^16, 2^17)`. -/
theorem usable_times_threshold_repr :
    usable_times_threshold = ((100800 * 2 ^ 36 : ℤ) : ℚ) / 2 ^ 36 := by
  rw [usable_times_threshold]
  norm_num

/-- `100800` is the strictly nearest point of the `2^-36` double grid to the
exact rational product `usable * AUTO_COMPACT_THRESHOLD = 100800 - 33600/2^53`
(the offset `33600/2^53` is under the half-step `65536/2^53`), so the IEEE
multiplication in `is_overflow` yields exactly `100800.0` with no
tie-breaking. -/
theorem usable_times_threshold_nearest (n : ℤ)
    (h : (n : ℚ) / 2 ^ 36 ≠ usable_times_threshold) :
    |usable_times_threshold - (get_usable_context : ℚ) * AUTO_COMPACT_THRESHOLD|
      < |(n : ℚ) / 2 ^ 36 - (get_usable_context : ℚ) * AUTO_COMPACT_THRESHOLD| := by
  have hn : n ≠ 100800 * 2 ^ 36 := by
    intro he
    apply h
    rw [he, usable_times_threshold]
    norm_num
  have husable : ((get_usable_context : Nat) : ℚ) = 168000 := by
    norm_num [get_usable_context, MODEL_CONTEXT_LIMIT, OUTPUT_TOKEN_MAX]
  rw [husable, usable_times_threshold, AUTO_COMPACT_THRESHOLD]
  have hL : |(100800 : ℚ) - 168000 * (5404319552844595 / 9007199254740992)|
      = 33600 / 9007199254740992 := by
    rw [abs_of_pos (by norm_num)]
    norm_num
  rw [hL]
  rcases lt_or_gt_of_ne hn with hlt | hgt
  · have hle : (n : ℚ) ≤ 100800 * 2 ^ 36 - 1 := by
      have h2 : n ≤ 100800 * 2 ^ 36 - 1 := by omega
      exact_mod_cast h2
    refine lt_abs.mpr (Or.inr ?_)
    linarith
  · have hge : (100800 * 2 ^ 36 + 1 : ℚ) ≤ (n : ℚ) := by
      have h2 : (100800 * 2 ^ 36 + 1 : ℤ) ≤ n := by omega
      exact_mod_cast h2
    refine lt_abs.mpr (Or.inl ?_)
    linarith

/-- `is_overflow` holds exactly for integer totals strictly above 100800
tokens: the IEEE product `168000 * float(0.6)` is exactly `100800.0`, and
Python's int-float comparison is exact, so a total of exactly 100800 does not
overflow. -/
theorem is_overflow_iff (total : Nat) : is_overflow total = true ↔ 100800 < total := by
  rw [is_overflow, usable_times_threshold]
  rw [decide_eq_true_iff]
  constructor
  · intro h
    exact_mod_cast h
  · intro h
    exact_mod_cast h

/-! ## C2: compaction is atomic on failure -/

/-- **C2.** If the nested summarization call raises (`.error`) or returns
empty text (`.ok ""`), `run_compaction` returns the input transcript
unchanged. -/
theorem C2_compaction_atomic_on_failure (llm : Except Unit String)
    (messages : List Msg) (system_prompt : String) (model : Option String)
    (target_tokens : Option Int)
    (h : llm = Except.error () ∨ llm = Except.ok "") :
    run_compaction llm messages system_prompt model target_tokens = messages := by
  rw [run_compaction]
  rcases h with h | h <;> subst h <;>
    by_cases hids : find_messages_to_compact messages
        ((target_tokens.getD DEFAULT_COMPACTION_TARGET)) = [] <;>
    simp [hids]

/-- Witness for C2 at a concrete transcript and a failing transport. -/
theorem C2_witness :
    run_compaction (Except.error ()) compactionWitnessTranscript "sys" none none
      = compactionWitnessTranscript :=
  C2_compaction_atomic_on_failure (Except.error ()) compactionWitnessTranscript
    "sys" none none (Or.inl rfl)

/-! ## C8: the token-estimate formula -/

/-- **C8 counterexample.** The claim as stated says every part counted as an
image by the image-counting functions incurs the 1000-token charge.  A part
with `type == "image"` is counted by `count_images_in_message` yet
`estimate_message_tokens` (which charges only `type == "image_url"`) gives
it nothing: the message estimates to 4, not 1004. -/
theorem C8_counterexample :
    count_images_in_message imageTypedMsg = 1 ∧
      estimate_message_tokens imageTypedMsg = 4 ∧
      ¬ (estimate_message_tokens imageTypedMsg =
          textTokensSum imageTypedMsg.content + 1000 * count_images_in_message imageTypedMsg
            + toolCallTokens imageTypedMsg + 4) := by
  refine ⟨by decide, by decide, by decide⟩

/-- **C8 (amended).** The token estimate of a message equals the sum of
`len(text)/4` over its parts (or its string content), plus a flat 1000-token
charge for every part of type `"image_url"` (not for parts of type
`"image"`), plus the estimates of every tool-call name and argument blob,
plus a fixed 4-token role overhead. -/
theorem C8_estimate_formula (msg : Msg) :
    estimate_message_tokens msg =
      textTokensSum msg.content + 1000 * imageUrlPartCount msg.content
        + toolCallTokens msg + 4 := by
  rw [estimate_message_tokens]
  have hcontent : contentTokens msg.content =
      textTokensSum msg.content + 1000 * imageUrlPartCount msg.content := by
    cases msg.content with
    | str s => simp [contentTokens, textTokensSum, imageUrlPartCount]
    | parts l =>
        rw [contentTokens, textTokensSum, imageUrlPartCount]
        induction l with
        | nil => simp
        | cons p rest ih =>
            rw [List.foldl_cons]
            have hshift : ∀ (l2 : List Part) (n : Nat),
                l2.foldl (fun t p2 =>
                  t + estimate_tokens p2.text + (if p2.ptype = "image_url" then 1000 else 0)) n
                = n + l2.foldl (fun t p2 =>
                    t + estimate_tokens p2.text + (if p2.ptype = "image_url" then 1000 else 0)) 0 := by
              intro l2
              induction l2 with
              | nil => intro n; simp
              | cons q qs ihq =>
                  intro n
                  rw [List.foldl_cons, List.foldl_cons]
                  have h1 := ihq (n + estimate_tokens q.text
                    + (if q.ptype = "image_url" then 1000 else 0))
                  have h2 := ihq (0 + estimate_tokens q.text
                    + (if q.ptype = "image_url" then 1000 else 0))
                  rw [h1, h2]
                  omega
            rw [hshift]
            rw [ih]
            by_cases hp : p.ptype = "image_url"
            · rw [if_pos hp, List.filter_cons_of_pos (by simp [hp])]
              simp only [List.map_cons, List.sum_cons, List.length_cons]
              omega
            · rw [if_neg hp, List.filter_cons_of_neg (by simp [hp])]
              simp only [List.map_cons, List.sum_cons]
              omega
  rw [hcontent]
  have htools : ∀ (l : List ToolCall) (n : Nat),
      l.foldl (fun t tc => t + estimate_tokens tc.name + estimate_tokens tc.arguments) n
        = n + (l.map (fun tc => estimate_tokens tc.name + estimate_tokens tc.arguments)).sum := by
    intro l
    induction l with
    | nil => intro n; simp
    | cons tc rest ih =>
        intro n
        rw [List.foldl_cons, ih]
        simp only [List.map_cons, List.sum_cons]
        omega
  rw [htools, toolCallTokens]

/-! ## C3: tool results are not always appended contiguously -/

/-- **C3 evaluation at the failing input.**  With two tool calls whose first
result is flagged `invalid_param`, the append loop of
`run_agent_loop` (loop.py lines 535-546) interleaves a user guidance message
between the two tool messages, so the appended tool messages are *not*
contiguous — contradicting the code's own comments ("We must add ALL tool
results before any other messages", "Add ALL tool results first") and the
spec's ordering invariant. -/
theorem C3_interleaved_guidance_eval :
    append_assistant_and_tool_results [] twoCallAssistantMsg [invalidFirstResult, okSecondResult]
        = [twoCallAssistantMsg, toolResultMsg invalidFirstResult,
           invalidGuidanceMsg invalidFirstResult, toolResultMsg okSecondResult] ∧
      ¬ ((append_assistant_and_tool_results [] twoCallAssistantMsg
            [invalidFirstResult, okSecondResult]).take 3
          = [twoCallAssistantMsg, toolResultMsg invalidFirstResult,
             toolResultMsg okSecondResult]) := by
  refine ⟨by decide, by decide⟩

/-! ## C9: exhausting all retry attempts does not stop the loop -/

/-- **C9 counterexample.** A transport failing with `rate_limit` on every one
of the 5 attempts does *not* terminate the loop: the iteration emits
`turn.failed` and `continue`s (loop.py lines 356-360), so the outcome is
`turnFailedContinue`, not the terminating `turnFailedStop`. -/
theorem C9_counterexample :
    iteration_outcome (fun _ => Except.error (TError.llmErr "rate_limit"))
        = IterResult.turnFailedContinue ∧
      IterResult.turnFailedContinue ≠ IterResult.turnFailedStop := by
  constructor
  · rw [iteration_outcome, llm_call_with_retry]
    rw [attemptLoop, attemptLoop, attemptLoop, attemptLoop, attemptLoop]
    simp [shouldRetry]
  · decide

/-- **C9 (amended).** If the transport raises a retryable `LLMError` (any
code other than the authentication codes, e.g. `rate_limit` or `api_error`)
on every one of the 5 attempts, the turn fails — a `turn.failed` event is
emitted — but the loop does **not** terminate: it proceeds to the next
iteration (`continue`). -/
theorem C9_retry_exhaustion_continues (transport : Nat → Except TError Resp)
    (code : String)
    (h : ∀ a, transport a = Except.error (TError.llmErr code))
    (h1 : code ≠ "authentication_error") (h2 : code ≠ "invalid_api_key") :
    iteration_outcome transport = IterResult.turnFailedContinue := by
  rw [iteration_outcome, llm_call_with_retry]
  rw [attemptLoop, attemptLoop, attemptLoop, attemptLoop, attemptLoop]
  simp [h, shouldRetry, h1, h2]

/-- Witness for C9 at the concrete always-`api_error` transport. -/
theorem C9_witness :
    iteration_outcome (fun _ => Except.error (TError.llmErr "api_error"))
      = IterResult.turnFailedContinue :=
  C9_retry_exhaustion_continues (fun _ => Except.error (TError.llmErr "api_error"))
    "api_error" (fun _ => rfl) (by decide) (by decide)

/-! ## Lemmas about the tool-output-prune scan -/

theorem pruneScan_succ (messages : List Msg) (p k total pruned turns : Nat)
    (acc : List Nat) :
    pruneScan messages p (k+1) total pruned turns acc =
      match messages.get? k with
      | none => (pruned, acc)
      | some msg =>
        let turns' := if msg.role = "user" then turns + 1 else turns
        if turns' < p then pruneScan messages p k total pruned turns' acc
        else if msg.role = "tool" then
          if isMarkerContent msg.content then (pruned, acc)
          else
            let e := contentEstimate msg.content
            if total + e > PRUNE_PROTECT then
              pruneScan messages p k (total + e) (pruned + e) turns' (k :: acc)
            else
              pruneScan messages p k (total + e) pruned turns' acc
        else pruneScan messages p k total pruned turns' acc := rfl

/-- Indices already accumulated survive the rest of the scan. -/
theorem pruneScan_acc_mono (messages : List Msg) (p : Nat) :
    ∀ (k total pruned turns : Nat) (acc : List Nat) (j : Nat), j ∈ acc →
      j ∈ (pruneScan messages p k total pruned turns acc).2 := by
  intro k
  induction k with
  | zero => intro total pruned turns acc j hj; exact hj
  | succ k ih =>
      intro total pruned turns acc j hj
      rw [pruneScan_succ]
      cases hm : messages.get? k with
      | none => exact hj
      | some msg =>
          simp only []
          by_cases h1 : (if msg.role = "user" then turns + 1 else turns) < p
          · rw [if_pos h1]; exact ih _ _ _ _ _ hj
          · rw [if_neg h1]
            by_cases h2 : msg.role = "tool"
            · rw [if_pos h2]
              by_cases h3 : isMarkerContent msg.content
              · rw [if_pos h3]; exact hj
              · rw [if_neg h3]
                by_cases h4 : total + contentEstimate msg.content > PRUNE_PROTECT
                · rw [if_pos h4]; exact ih _ _ _ _ _ (List.mem_cons_of_mem k hj)
                · rw [if_neg h4]; exact ih _ _ _ _ _ hj
            · rw [if_neg h2]; exact ih _ _ _ _ _ hj

/-- Every index the scan accumulates beyond the initial accumulator is below
the scan position and designates an unmarked tool message. -/
theorem pruneScan_acc_src (messages : List Msg) (p : Nat) :
    ∀ (k total pruned turns : Nat) (acc : List Nat) (j : Nat),
      j ∈ (pruneScan messages p k total pruned turns acc).2 →
      j ∈ acc ∨ (j < k ∧ ∃ m, messages.get? j = some m ∧ m.role = "tool" ∧
        isMarkerContent m.content = false) := by
  intro k
  induction k with
  | zero => intro total pruned turns acc j hj; exact Or.inl hj
  | succ k ih =>
      intro total pruned turns acc j hj
      rw [pruneScan_succ] at hj
      cases hm : messages.get? k with
      | none => rw [hm] at hj; exact Or.inl hj
      | some msg =>
          rw [hm] at hj
          simp only [] at hj
          by_cases h1 : (if msg.role = "user" then turns + 1 else turns) < p
          · rw [if_pos h1] at hj
            rcases ih _ _ _ _ _ hj with h | ⟨hk, hex⟩
            · exact Or.inl h
            · exact Or.inr ⟨Nat.lt_succ_of_lt hk, hex⟩
          · rw [if_neg h1] at hj
            by_cases h2 : msg.role = "tool"
            · rw [if_pos h2] at hj
              by_cases h3 : isMarkerContent msg.content
              · rw [if_pos h3] at hj; exact Or.inl hj
              · rw [if_neg h3] at hj
                by_cases h4 : total + contentEstimate msg.content > PRUNE_PROTECT
                · rw [if_pos h4] at hj
                  rcases ih _ _ _ _ _ hj with h | ⟨hk, hex⟩
                  · rcases List.mem_cons.mp h with h | h
                    · subst h
                      exact Or.inr ⟨Nat.lt_succ_self j,
                        msg, hm, h2, Bool.not_eq_true _ ▸ (by simpa using h3)⟩
                    · exact Or.inl h
                  · exact Or.inr ⟨Nat.lt_succ_of_lt hk, hex⟩
                · rw [if_neg h4] at hj
                  rcases ih _ _ _ _ _ hj with h | ⟨hk, hex⟩
                  · exact Or.inl h
                  · exact Or.inr ⟨Nat.lt_succ_of_lt hk, hex⟩
            · rw [if_neg h2] at hj
              rcases ih _ _ _ _ _ hj with h | ⟨hk, hex⟩
              · exact Or.inl h
              · exact Or.inr ⟨Nat.lt_succ_of_lt hk, hex⟩

theorem applyPruneMarks_get (S : List Nat) :
    ∀ (l : List Msg) (n j : Nat),
      (applyPruneMarks S n l).get? j = (l.get? j).map
        (fun m => if (n + j) ∈ S then { m with content := Content.str PRUNE_MARKER } else m) := by
  intro l
  induction l with
  | nil => intro n j; simp [applyPruneMarks]
  | cons m rest ih =>
      intro n j
      cases j with
      | zero => simp [applyPruneMarks]
      | succ j =>
          rw [applyPruneMarks]
          simp only [List.get?_cons_succ]
          rw [ih (n+1) j]
          have : n + 1 + j = n + (j + 1) := by omega
          rw [this]

theorem applyPruneMarks_length (S : List Nat) :
    ∀ (l : List Msg) (n : Nat), (applyPruneMarks S n l).length = l.length := by
  intro l
  induction l with
  | nil => intro n; rfl
  | cons m rest ih => intro n; simp [applyPruneMarks, ih]

/-! ## C5: shape of the tool-output pruner -/

/-- **C5.** `prune_old_tool_outputs` preserves message count; every output
message is either identical to the corresponding input message or a
tool-role message whose content was replaced by the prune marker (role,
tool-call id — indeed every other field — unchanged); and the input is
returned completely unmodified unless the recoverable token total of the
backward scan strictly exceeds `PRUNE_MINIMUM` (20000). -/
theorem C5_pruner_shape (messages : List Msg) (protect_last_turns : Nat) :
    (prune_old_tool_outputs messages protect_last_turns).length = messages.length ∧
    (∀ i, (prune_old_tool_outputs messages protect_last_turns).get? i = messages.get? i ∨
      ∃ m, messages.get? i = some m ∧ m.role = "tool" ∧
        (prune_old_tool_outputs messages protect_last_turns).get? i
          = some { m with content := Content.str PRUNE_MARKER }) ∧
    ((pruneScan messages protect_last_turns messages.length 0 0 0 []).1 ≤ PRUNE_MINIMUM →
      prune_old_tool_outputs messages protect_last_turns = messages) := by
  by_cases hnil : messages = []
  · subst hnil
    refine ⟨rfl, fun i => Or.inl rfl, fun _ => rfl⟩
  · rw [prune_old_tool_outputs, if_neg hnil]
    by_cases hmin : (pruneScan messages protect_last_turns messages.length 0 0 0 []).1
        ≤ PRUNE_MINIMUM
    · rw [if_pos hmin]
      exact ⟨rfl, fun i => Or.inl rfl, fun _ => rfl⟩
    · rw [if_neg hmin]
      refine ⟨applyPruneMarks_length _ _ _, ?_, fun h => absurd h hmin⟩
      intro i
      rw [applyPruneMarks_get]
      simp only [Nat.zero_add]
      cases hm : messages.get? i with
      | none => exact Or.inl rfl
      | some m =>
          simp only [Option.map_some']
          by_cases hin : i ∈ (pruneScan messages protect_last_turns
              messages.length 0 0 0 []).2
          · rcases pruneScan_acc_src messages protect_last_turns _ _ _ _ _ _
                hin with h | ⟨_, m2, hm2, hrole, _⟩
            · exact absurd h (List.not_mem_nil _)
            · rw [hm2] at hm
              injection hm with hm
              subst hm
              exact Or.inr ⟨m2, rfl, hrole, by rw [if_pos hin]⟩
          · rw [if_neg hin]
            exact Or.inl rfl

/-- Witness for C5 at a concrete transcript (recoverable total is 0, so the
input comes back unmodified). -/
theorem C5_witness :
    (pruneScan smallPruneTranscript 2 smallPruneTranscript.length 0 0 0 []).1
        ≤ PRUNE_MINIMUM ∧
      prune_old_tool_outputs smallPruneTranscript 2 = smallPruneTranscript :=
  ⟨by decide, (C5_pruner_shape smallPruneTranscript 2).2.2 (by decide)⟩

/-! ## C6: the tool-output pruner is idempotent -/

/-- Re-scanning the marked transcript accumulates nothing: as long as the
running total is still within `PRUNE_PROTECT`, the second scan either walks
the same unmarked messages (same totals) or hits the first freshly-written
marker — at which point the running total has not yet crossed
`PRUNE_PROTECT` — and stops. -/
theorem pruneScan_marked (messages : List Msg) (p : Nat) :
    ∀ (k total pruned turns : Nat) (acc : List Nat),
      total ≤ PRUNE_PROTECT →
      (∀ j ∈ acc, k ≤ j) →
      pruneScan (applyPruneMarks ((pruneScan messages p k total pruned turns acc).2) 0 messages)
        p k total 0 turns [] = (0, []) := by
  intro k
  induction k with
  | zero => intro total pruned turns acc htot hacc; rfl
  | succ k ih =>
      intro total pruned turns acc htot hacc
      have hacck : ∀ j ∈ acc, k ≤ j := fun j hj => Nat.le_of_succ_le (hacc j hj)
      cases hm : messages.get? k with
      | none =>
          have hS : pruneScan messages p (k+1) total pruned turns acc = (pruned, acc) := by
            rw [pruneScan_succ, hm]
          rw [hS]
          rw [pruneScan_succ, applyPruneMarks_get]
          simp only [Nat.zero_add, hm, Option.map_none']
      | some m =>
          -- notation for "the message is not yet marked at k"
          have hnotk : ∀ (st : Nat × List Nat),
              (∀ j ∈ st.2, j ∈ acc ∨ j < k) → k ∉ st.2 := by
            intro st hsub hk
            rcases hsub k hk with h | h
            · exact absurd (hacc k h) (by omega)
            · omega
          by_cases h1 : (if m.role = "user" then turns + 1 else turns) < p
          · -- protected region: both scans skip this message
            have hS : pruneScan messages p (k+1) total pruned turns acc
                = pruneScan messages p k total pruned
                    (if m.role = "user" then turns + 1 else turns) acc := by
              rw [pruneScan_succ, hm]
              simp only []
              rw [if_pos h1]
            rw [hS]
            have hk : k ∉ (pruneScan messages p k total pruned
                (if m.role = "user" then turns + 1 else turns) acc).2 := by
              intro hk
              rcases pruneScan_acc_src messages p _ _ _ _ _ _ hk with h | ⟨h, _⟩
              · exact absurd (hacc k h) (by omega)
              · omega
            rw [pruneScan_succ, applyPruneMarks_get]
            simp only [Nat.zero_add, hm, Option.map_some']
            rw [if_neg hk]
            rw [if_pos h1]
            exact ih total pruned _ acc htot hacck
          · by_cases h2 : m.role = "tool"
            · by_cases h3 : isMarkerContent m.content = true
              · -- pre-existing marker: both scans stop here
                have hS : pruneScan messages p (k+1) total pruned turns acc = (pruned, acc) := by
                  rw [pruneScan_succ, hm]
                  simp only []
                  rw [if_neg h1, if_pos h2, if_pos h3]
                rw [hS]
                have hk : k ∉ acc := fun h => absurd (hacc k h) (by omega)
                rw [pruneScan_succ, applyPruneMarks_get]
                simp only [Nat.zero_add, hm, Option.map_some']
                rw [if_neg hk]
                rw [if_neg h1, if_pos h2, if_pos h3]
              · by_cases h4 : total + contentEstimate m.content > PRUNE_PROTECT
                · -- the crossing message: marked by run 1, so run 2 stops here
                  have hS : pruneScan messages p (k+1) total pruned turns acc
                      = pruneScan messages p k (total + contentEstimate m.content)
                          (pruned + contentEstimate m.content)
                          (if m.role = "user" then turns + 1 else turns) (k :: acc) := by
                    rw [pruneScan_succ, hm]
                    simp only []
                    rw [if_neg h1, if_pos h2, if_neg h3, if_pos h4]
                  rw [hS]
                  have hk : k ∈ (pruneScan messages p k (total + contentEstimate m.content)
                      (pruned + contentEstimate m.content)
                      (if m.role = "user" then turns + 1 else turns) (k :: acc)).2 :=
                    pruneScan_acc_mono messages p _ _ _ _ _ _ (List.mem_cons_self k acc)
                  rw [pruneScan_succ, applyPruneMarks_get]
                  simp only [Nat.zero_add, hm, Option.map_some']
                  rw [if_pos hk]
                  simp only []
                  rw [if_neg h1, if_pos h2]
                  rw [if_pos (by simp [isMarkerContent])]
                · -- unmarked tool message within the protect budget
                  have hS : pruneScan messages p (k+1) total pruned turns acc
                      = pruneScan messages p k (total + contentEstimate m.content) pruned
                          (if m.role = "user" then turns + 1 else turns) acc := by
                    rw [pruneScan_succ, hm]
                    simp only []
                    rw [if_neg h1, if_pos h2, if_neg h3, if_neg h4]
                  rw [hS]
                  have hk : k ∉ (pruneScan messages p k (total + contentEstimate m.content)
                      pruned (if m.role = "user" then turns + 1 else turns) acc).2 := by
                    intro hk
                    rcases pruneScan_acc_src messages p _ _ _ _ _ _ hk with h | ⟨h, _⟩
                    · exact absurd (hacc k h) (by omega)
                    · omega
                  rw [pruneScan_succ, applyPruneMarks_get]
                  simp only [Nat.zero_add, hm, Option.map_some']
                  rw [if_neg hk]
                  rw [if_neg h1, if_pos h2, if_neg h3, if_neg h4]
                  exact ih (total + contentEstimate m.content) pruned _ acc (by omega) hacck
            · -- non-tool message in the unprotected region
              have hS : pruneScan messages p (k+1) total pruned turns acc
                  = pruneScan messages p k total pruned
                      (if m.role = "user" then turns + 1 else turns) acc := by
                rw [pruneScan_succ, hm]
                simp only []
                rw [if_neg h1, if_neg h2]
              rw [hS]
              have hk : k ∉ (pruneScan messages p k total pruned
                  (if m.role = "user" then turns + 1 else turns) acc).2 := by
                intro hk
                rcases pruneScan_acc_src messages p _ _ _ _ _ _ hk with h | ⟨h, _⟩
                · exact absurd (hacc k h) (by omega)
                · omega
              rw [pruneScan_succ, applyPruneMarks_get]
              simp only [Nat.zero_add, hm, Option.map_some']
              rw [if_neg hk]
              rw [if_neg h1, if_neg h2]
              exact ih total pruned _ acc htot hacck

/-- **C6.** `prune_old_tool_outputs` is idempotent: applying it to its own
output returns that output unchanged — on the second pass the backward scan
stops at the first marker (or sees the same under-budget totals), so the
recoverable total is 0 and the transcript is returned as-is. -/
theorem C6_pruner_idempotent (messages : List Msg) (protect_last_turns : Nat) :
    prune_old_tool_outputs (prune_old_tool_outputs messages protect_last_turns)
        protect_last_turns
      = prune_old_tool_outputs messages protect_last_turns := by
  by_cases hnil : messages = []
  · subst hnil; rfl
  · by_cases hmin : (pruneScan messages protect_last_turns messages.length 0 0 0 []).1
        ≤ PRUNE_MINIMUM
    · have h1 : prune_old_tool_outputs messages protect_last_turns = messages := by
        rw [prune_old_tool_outputs, if_neg hnil, if_pos hmin]
      rw [h1]
      exact h1
    · have h1 : prune_old_tool_outputs messages protect_last_turns
          = applyPruneMarks ((pruneScan messages protect_last_turns
              messages.length 0 0 0 []).2) 0 messages := by
        rw [prune_old_tool_outputs, if_neg hnil, if_neg hmin]
      rw [h1]
      have hlen : (applyPruneMarks ((pruneScan messages protect_last_turns
          messages.length 0 0 0 []).2) 0 messages).length = messages.length :=
        applyPruneMarks_length _ _ _
      have hnil2 : applyPruneMarks ((pruneScan messages protect_last_turns
          messages.length 0 0 0 []).2) 0 messages ≠ [] := by
        intro h
        apply hnil
        have := hlen
        rw [h] at this
        exact List.length_eq_zero.mp this.symm
      have hscan2 := pruneScan_marked messages protect_last_turns
        messages.length 0 0 0 [] (by omega) (by intro j hj; exact absurd hj (List.not_mem_nil j))
      rw [prune_old_tool_outputs, if_neg hnil2, hlen, hscan2]
      rw [if_pos (by norm_num [PRUNE_MINIMUM])]

/-! ## Lemmas about the cache-breakpoint selector -/

theorem applyAtIndices_get (S : List Nat) (f : Msg → Msg) :
    ∀ (l : List Msg) (n j : Nat),
      (applyAtIndices S f n l).get? j = (l.get? j).map
        (fun m => if (n + j) ∈ S then f m else m) := by
  intro l
  induction l with
  | nil => intro n j; simp [applyAtIndices]
  | cons m rest ih =>
      intro n j
      cases j with
      | zero => simp [applyAtIndices]
      | succ j =>
          rw [applyAtIndices]
          simp only [List.get?_cons_succ]
          rw [ih (n+1) j]
          have : n + 1 + j = n + (j + 1) := by omega
          rw [this]

theorem applyAtIndices_length (S : List Nat) (f : Msg → Msg) :
    ∀ (l : List Msg) (n : Nat), (applyAtIndices S f n l).length = l.length := by
  intro l
  induction l with
  | nil => intro n; rfl
  | cons m rest ih => intro n; simp [applyAtIndices, ih]

theorem add_cache_role (msg : Msg) :
    (add_cache_control_to_message msg).role = msg.role := by
  cases msg with
  | mk role content tool_calls tool_call_id =>
      cases content with
      | parts l =>
          simp only [add_cache_control_to_message]
          by_cases h : l.any (fun p => p.cache) = true
          · rw [if_pos h]
          · rw [if_neg h]
            cases lastTruthyTextIdx l with
            | some i => rfl
            | none => rfl
      | str s =>
          simp only [add_cache_control_to_message]
          by_cases h : s = ""
          · rw [if_pos h]
          · rw [if_neg h]

theorem lastTruthyTextIdx_setPartCache :
    ∀ (l : List Part) (i : Nat), lastTruthyTextIdx l = some i →
      (setPartCache i l).any (fun p => p.cache) = true := by
  intro l
  induction l with
  | nil => intro i h; exact absurd h (by simp [lastTruthyTextIdx])
  | cons p rest ih =>
      intro i h
      rw [lastTruthyTextIdx] at h
      cases hr : lastTruthyTextIdx rest with
      | some j =>
          rw [hr] at h
          injection h with h
          subst h
          rw [setPartCache]
          simp only [List.any_cons]
          rw [ih j hr]
          simp
      | none =>
          rw [hr] at h
          by_cases hc : p.ptype = "text" ∧ p.text ≠ ""
          · rw [if_pos hc] at h
            injection h with h
            subst h
            rw [setPartCache]
            simp
          · rw [if_neg hc] at h
            exact absurd h (by simp)

theorem add_cache_idem (msg : Msg) :
    add_cache_control_to_message (add_cache_control_to_message msg)
      = add_cache_control_to_message msg := by
  cases msg with
  | mk role content tool_calls tool_call_id =>
      cases content with
      | parts l =>
          simp only [add_cache_control_to_message]
          by_cases h : l.any (fun p => p.cache) = true
          · rw [if_pos h]
            simp only [add_cache_control_to_message]
            rw [if_pos h]
          · rw [if_neg h]
            cases hlt : lastTruthyTextIdx l with
            | some i =>
                simp only [add_cache_control_to_message]
                rw [if_pos (lastTruthyTextIdx_setPartCache l i hlt)]
            | none =>
                simp only [add_cache_control_to_message]
                rw [if_neg h, hlt]
      | str s =>
          simp only [add_cache_control_to_message]
          by_cases h : s = ""
          · rw [if_pos h]
            simp only [add_cache_control_to_message]
            rw [if_pos h]
          · rw [if_neg h]
            simp only [add_cache_control_to_message]
            rw [if_pos (by simp : ([({ ptype := "text", text := s, cache := true } : Part)].any
              (fun p => p.cache)) = true)]

theorem applyAtIndices_idem (S : List Nat) (f : Msg → Msg)
    (hf : ∀ m, f (f m) = f m) :
    ∀ (l : List Msg) (n : Nat),
      applyAtIndices S f n (applyAtIndices S f n l) = applyAtIndices S f n l := by
  intro l
  induction l with
  | nil => intro n; rfl
  | cons m rest ih =>
      intro n
      rw [applyAtIndices, applyAtIndices]
      by_cases h : n ∈ S
      · rw [if_pos h, if_pos h, hf, ih]
      · rw [if_neg h, if_neg h, ih]

theorem splitRoleIdx_role_invariant (g : Msg → Msg) (hg : ∀ m, (g m).role = m.role)
    (S : List Nat) :
    ∀ (l : List Msg) (n : Nat), splitRoleIdx n (applyAtIndices S g n l) = splitRoleIdx n l := by
  intro l
  induction l with
  | nil => intro n; rfl
  | cons m rest ih =>
      intro n
      rw [applyAtIndices, splitRoleIdx, splitRoleIdx]
      rw [ih (n+1)]
      have hrole : (if n ∈ S then g m else m).role = m.role := by
        by_cases h : n ∈ S
        · rw [if_pos h, hg]
        · rw [if_neg h]
      rw [hrole]

/-! ## C7: cache-breakpoint selector properties -/

/-- **C7.** Applied with caching enabled, `_apply_caching` preserves the
message count, changes at most 4 messages (the first ≤2 system-role and the
last ≤2 non-system-role ones), never touches a message whose content is an
empty string, and is idempotent. -/
theorem C7_caching_properties (messages : List Msg) :
    (apply_caching messages true).length = messages.length ∧
    ((List.range messages.length).filter
        (fun i => (apply_caching messages true).get? i ≠ messages.get? i)).length ≤ 4 ∧
    (∀ i m, messages.get? i = some m → m.content = Content.str "" →
      (apply_caching messages true).get? i = some m) ∧
    apply_caching (apply_caching messages true) true = apply_caching messages true := by
  by_cases hnil : messages = []
  · subst hnil
    refine ⟨rfl, by simp, fun i m hm _ => by simp at hm, rfl⟩
  · have hout : apply_caching messages true
        = applyAtIndices (cacheIndexSet messages) add_cache_control_to_message 0 messages := by
      rw [apply_caching, if_neg (by simp [hnil])]
    have hcard : (cacheIndexSet messages).length ≤ 4 := by
      rw [cacheIndexSet]
      rw [List.length_append, List.length_take, List.length_drop]
      have h1 : min 2 (splitRoleIdx 0 messages).1.length ≤ 2 := Nat.min_le_left _ _
      omega
    have hempty : ∀ i m, messages.get? i = some m → m.content = Content.str "" →
        (apply_caching messages true).get? i = some m := by
      intro i m hm hc
      rw [hout, applyAtIndices_get]
      simp only [Nat.zero_add, hm, Option.map_some']
      by_cases h : i ∈ cacheIndexSet messages
      · rw [if_pos h]
        cases m with
        | mk role content tool_calls tool_call_id =>
            simp only [] at hc
            subst hc
            simp [add_cache_control_to_message]
      · rw [if_neg h]
    refine ⟨?_, ?_, hempty, ?_⟩
    · rw [hout]; exact applyAtIndices_length _ _ _ _
    · have hsub : ((List.range messages.length).filter
          (fun i => (apply_caching messages true).get? i ≠ messages.get? i))
            ⊆ cacheIndexSet messages := by
        intro i hi
        rcases List.mem_filter.mp hi with ⟨hrange, hne⟩
        by_contra hnot
        apply (by simpa using hne : ¬ ((apply_caching messages true).get? i = messages.get? i))
        rw [hout, applyAtIndices_get]
        simp only [Nat.zero_add]
        cases hm : messages.get? i with
        | none => rfl
        | some m => simp only [Option.map_some']; rw [if_neg hnot]
      have hnd : ((List.range messages.length).filter
          (fun i => (apply_caching messages true).get? i ≠ messages.get? i)).Nodup :=
        List.Nodup.filter _ (List.nodup_range _)
      have := nodup_subset_length_le _ _ hnd hsub
      omega
    · have hout2 : apply_caching (apply_caching messages true) true
          = applyAtIndices (cacheIndexSet (apply_caching messages true))
              add_cache_control_to_message 0 (apply_caching messages true) := by
        rw [apply_caching]
        rw [if_neg (by
          simp only [hout]
          intro hc
          rcases hc with hc | hc
          · exact absurd hc (by simp)
          · apply hnil
            have hl := applyAtIndices_length (cacheIndexSet messages)
              add_cache_control_to_message messages 0
            rw [hc] at hl
            exact List.length_eq_zero.mp hl.symm)]
      rw [hout2]
      have hsame : cacheIndexSet (apply_caching messages true) = cacheIndexSet messages := by
        rw [cacheIndexSet, cacheIndexSet, hout,
          splitRoleIdx_role_invariant add_cache_control_to_message add_cache_role]
      rw [hsame, hout]
      exact applyAtIndices_idem _ _ add_cache_idem _ _

/-- Witness for C7: in the concrete transcript the empty-content user
message is selected as a trailing breakpoint but is left untouched. -/
theorem C7_witness :
    (apply_caching smallCacheTranscript true).get? 1
      = some { role := "user", content := Content.str "" } :=
  (C7_caching_properties smallCacheTranscript).2.2.1 1
    { role := "user", content := Content.str "" } (by decide) rfl

/-! ## Lemmas about the image evictor -/

theorem count_images_foldl (l : List Part) :
    ∀ n, l.foldl (fun c p => if p.ptype = "image_url" ∨ p.ptype = "image" then c + 1 else c) n
      = n + (l.filter (fun p => p.ptype = "image_url" ∨ p.ptype = "image")).length := by
  induction l with
  | nil => intro n; simp
  | cons p rest ih =>
      intro n
      rw [List.foldl_cons]
      by_cases hp : p.ptype = "image_url" ∨ p.ptype = "image"
      · rw [if_pos hp, ih, List.filter_cons_of_pos (by simpa using hp), List.length_cons]
        omega
      · rw [if_neg hp, ih, List.filter_cons_of_neg (by simpa using hp)]

/-- After stripping, a message holds no image parts. -/
theorem count_images_strip (msg : Msg) (l : List Part) :
    count_images_in_message { msg with content := Content.parts (stripImageParts l) } = 0 := by
  show (stripImageParts l).foldl
    (fun c p => if p.ptype = "image_url" ∨ p.ptype = "image" then c + 1 else c) 0 = 0
  rw [count_images_foldl]
  have : (stripImageParts l).filter
      (fun p => p.ptype = "image_url" ∨ p.ptype = "image") = [] := by
    induction l with
    | nil => rfl
    | cons p rest ih =>
        rw [stripImageParts] at *
        rw [List.map_cons]
        by_cases hp : p.ptype = "image_url" ∨ p.ptype = "image"
        · rw [if_pos hp, List.filter_cons_of_neg (by simp [IMAGE_PRUNE_MARKER])]
          exact ih
        · rw [if_neg hp, List.filter_cons_of_neg (by simpa using hp)]
          exact ih
  rw [this]
  rfl

theorem count_total_cons (msg : Msg) (rest : List Msg) :
    count_total_images (msg :: rest) = count_images_in_message msg + count_total_images rest := by
  rw [count_total_images, count_total_images, List.map_cons, List.sum_cons]

/-- Pruned image count accounting: selected images disappear, the rest stay. -/
theorem applyImagePrune_count (P : List Nat) :
    ∀ (l : List Msg) (n : Nat),
      count_total_images (applyImagePrune P n l) + selectedImageCount P n l
        = count_total_images l := by
  intro l
  induction l with
  | nil => intro n; rfl
  | cons msg rest ih =>
      intro n
      rw [applyImagePrune, selectedImageCount, count_total_cons, count_total_cons]
      by_cases hn : n ∈ P
      · rw [if_pos hn, if_pos hn]
        cases hc : msg.content with
        | str s =>
            have hz : count_images_in_message msg = 0 := by
              rw [count_images_in_message, hc]
            rw [hz]
            have := ih (n+1)
            omega
        | parts pl =>
            rw [count_images_strip]
            have := ih (n+1)
            omega
      · rw [if_neg hn, if_neg hn]
        have := ih (n+1)
        omega

/-- If every image-bearing position is selected, the selection accounts for
every image. -/
theorem selected_cover (messages : List Msg) (P : List Nat) :
    ∀ (l : List Msg) (n : Nat),
      (∀ j m, l.get? j = some m → 0 < count_images_in_message m → (n + j) ∈ P) →
      selectedImageCount P n l = count_total_images l := by
  intro l
  induction l with
  | nil => intro n hcov; rfl
  | cons msg rest ih =>
      intro n hcov
      rw [selectedImageCount, count_total_cons]
      have hrest := ih (n+1) (fun j m hm hc => by
        have := hcov (j+1) m (by simpa using hm) hc
        have harith : n + (j + 1) = n + 1 + j := by omega
        rwa [harith] at this)
      rw [hrest]
      by_cases hz : 0 < count_images_in_message msg
      · rw [if_pos (by simpa using hcov 0 msg rfl hz)]
      · have : count_images_in_message msg = 0 := by omega
        rw [this]
        by_cases hn : n ∈ P
        · rw [if_pos hn]
        · rw [if_neg hn]

theorem selected_append_lt (P : List Nat) (idx : Nat) :
    ∀ (l : List Msg) (n : Nat), idx < n →
      selectedImageCount (P ++ [idx]) n l = selectedImageCount P n l := by
  intro l
  induction l with
  | nil => intro n _; rfl
  | cons msg rest ih =>
      intro n hlt
      rw [selectedImageCount, selectedImageCount, ih (n+1) (by omega)]
      have : (n ∈ P ++ [idx]) ↔ n ∈ P := by
        rw [List.mem_append]
        simp only [List.mem_singleton]
        constructor
        · rintro (hh | hh)
          · exact hh
          · omega
        · exact Or.inl
      by_cases hn : n ∈ P
      · rw [if_pos hn, if_pos (this.mpr hn)]
      · rw [if_neg hn, if_neg (fun hx => hn (this.mp hx))]

theorem selected_append_ge (P : List Nat) (idx : Nat) (m : Msg) (messages : List Msg) :
    ∀ (l : List Msg) (n : Nat), n ≤ idx → idx ∉ P →
      l.get? (idx - n) = some m →
      selectedImageCount (P ++ [idx]) n l
        = selectedImageCount P n l + count_images_in_message m := by
  intro l
  induction l with
  | nil => intro n _ _ hget; exact absurd hget (by simp)
  | cons msg rest ih =>
      intro n hle hnotin hget
      rw [selectedImageCount, selectedImageCount]
      by_cases heq : n = idx
      · have h0 : idx - n = 0 := by omega
        rw [h0] at hget
        have hm : msg = m := by injection hget
        subst hm
        have hnP : n ∉ P := by rw [heq]; exact hnotin
        rw [if_pos (by rw [heq]; simp), if_neg hnP]
        rw [selected_append_lt P idx rest (n+1) (by omega)]
        omega
      · have hlt : n < idx := by omega
        have hget' : rest.get? (idx - (n+1)) = some m := by
          have harith : idx - n = (idx - (n+1)) + 1 := by omega
          rw [harith] at hget
          simpa using hget
        rw [ih (n+1) (by omega) hnotin hget']
        have : (n ∈ P ++ [idx]) ↔ n ∈ P := by
          rw [List.mem_append]
          simp only [List.mem_singleton]
          constructor
          · rintro (hh | hh)
            · exact hh
            · omega
          · exact Or.inl
        by_cases hn : n ∈ P
        · rw [if_pos hn, if_pos (this.mpr hn)]; omega
        · rw [if_neg hn, if_neg (fun hx => hn (this.mp hx))]; omega

theorem imageEntries_lb (messages : List Msg) :
    ∀ (l : List Msg) (i : Nat) (e : Nat × Bool × Nat),
      e ∈ imageEntriesLoop messages i l → i ≤ e.1 := by
  intro l
  induction l with
  | nil => intro i e he; exact absurd he (by simp [imageEntriesLoop])
  | cons msg rest ih =>
      intro i e he
      rw [imageEntriesLoop] at he
      rcases List.mem_append.mp he with hh | hh
      · by_cases hc : count_images_in_message msg > 0
        · rw [if_pos hc] at hh
          rcases List.mem_singleton.mp hh with rfl
          exact Nat.le_refl i
        · rw [if_neg hc] at hh
          exact absurd hh (by simp)
      · exact Nat.le_of_succ_le (ih (i+1) e hh)

theorem imageEntries_pairwise (messages : List Msg) :
    ∀ (l : List Msg) (i : Nat),
      ((imageEntriesLoop messages i l).map Prod.fst).Pairwise (· < ·) := by
  intro l
  induction l with
  | nil => intro i; simp [imageEntriesLoop]
  | cons msg rest ih =>
      intro i
      rw [imageEntriesLoop]
      by_cases hc : count_images_in_message msg > 0
      · rw [if_pos hc]
        rw [List.singleton_append, List.map_cons]
        refine List.Pairwise.cons ?_ (ih (i+1))
        intro x hx
        rcases List.mem_map.mp hx with ⟨e, he, rfl⟩
        exact Nat.lt_of_succ_le (imageEntries_lb messages rest (i+1) e he)
      · rw [if_neg hc, List.nil_append]
        exact ih (i+1)

theorem imageEntries_valid (messages : List Msg) :
    ∀ (l : List Msg) (i : Nat) (e : Nat × Bool × Nat),
      e ∈ imageEntriesLoop messages i l →
      (∀ j, l.get? j = messages.get? (i + j)) →
      ∃ m, messages.get? e.1 = some m ∧ e.2.2 = count_images_in_message m
        ∧ 0 < count_images_in_message m := by
  intro l
  induction l with
  | nil => intro i e he _; exact absurd he (by simp [imageEntriesLoop])
  | cons msg rest ih =>
      intro i e he hsuf
      rw [imageEntriesLoop] at he
      rcases List.mem_append.mp he with hh | hh
      · by_cases hc : count_images_in_message msg > 0
        · rw [if_pos hc] at hh
          rcases List.mem_singleton.mp hh with rfl
          refine ⟨msg, ?_, rfl, hc⟩
          have := hsuf 0
          simpa using this.symm
        · rw [if_neg hc] at hh
          exact absurd hh (by simp)
      · refine ih (i+1) e hh ?_
        intro j
        have := hsuf (j+1)
        have harith : i + (j + 1) = i + 1 + j := by omega
        rw [harith] at this
        simpa using this

theorem imageEntries_complete (messages : List Msg) :
    ∀ (l : List Msg) (i j : Nat) (m : Msg),
      l.get? j = some m → 0 < count_images_in_message m →
      (i + j, is_image_analyzed messages (i + j), count_images_in_message m)
        ∈ imageEntriesLoop messages i l := by
  intro l
  induction l with
  | nil => intro i j m hget _; exact absurd hget (by simp)
  | cons msg rest ih =>
      intro i j m hget hc
      rw [imageEntriesLoop]
      cases j with
      | zero =>
          have hm : msg = m := by simpa using hget
          subst hm
          rw [if_pos hc]
          apply List.mem_append.mpr
          left
          simp
      | succ j =>
          apply List.mem_append.mpr
          right
          have := ih (i+1) j m (by simpa using hget) hc
          have harith : i + 1 + j = i + (j + 1) := by omega
          rwa [harith] at this

/-- Positive total image count yields an image-bearing message. -/
theorem exists_image_msg :
    ∀ (l : List Msg), 0 < count_total_images l →
      ∃ j m, l.get? j = some m ∧ 0 < count_images_in_message m := by
  intro l
  induction l with
  | nil => intro hforce; exact absurd hforce (by simp [count_total_images])
  | cons msg rest ih =>
      intro hl
      rw [count_total_cons] at hl
      by_cases hc : 0 < count_images_in_message msg
      · exact ⟨0, msg, rfl, hc⟩
      · have : 0 < count_total_images rest := by omega
        rcases ih this with ⟨j, m, hget, hcm⟩
        exact ⟨j+1, m, by simpa using hget, hcm⟩

theorem imagePassOne_acc (t : Nat) :
    ∀ (entries : List (Nat × Bool × Nat)) (removed : Nat) (acc : List Nat) (j : Nat),
      j ∈ acc → j ∈ (imagePassOne t entries removed acc).2 := by
  intro entries
  induction entries with
  | nil => intro removed acc j hj; exact hj
  | cons e rest ih =>
      rcases e with ⟨idx, analyzed, cnt⟩
      intro removed acc j hj
      rw [imagePassOne]
      by_cases h1 : removed ≥ t
      · rw [if_pos h1]; exact hj
      · rw [if_neg h1]
        by_cases h2 : analyzed = true
        · rw [if_pos h2]
          exact ih _ _ j (List.mem_append.mpr (Or.inl hj))
        · rw [if_neg h2]
          exact ih _ _ j hj

theorem imagePassTwo_acc (t : Nat) :
    ∀ (entries : List (Nat × Bool × Nat)) (removed : Nat) (acc : List Nat) (j : Nat),
      j ∈ acc → j ∈ (imagePassTwo t entries removed acc).2 := by
  intro entries
  induction entries with
  | nil => intro removed acc j hj; exact hj
  | cons e rest ih =>
      rcases e with ⟨idx, analyzed, cnt⟩
      intro removed acc j hj
      rw [imagePassTwo]
      by_cases h1 : removed ≥ t
      · rw [if_pos h1]; exact hj
      · rw [if_neg h1]
        by_cases h2 : analyzed = false ∧ idx ∉ acc
        · rw [if_pos h2]
          exact ih _ _ j (List.mem_append.mpr (Or.inl hj))
        · rw [if_neg h2]
          exact ih _ _ j hj

theorem imagePassOne_src (t : Nat) :
    ∀ (entries : List (Nat × Bool × Nat)) (removed : Nat) (acc : List Nat) (j : Nat),
      j ∈ (imagePassOne t entries removed acc).2 →
      j ∈ acc ∨ ∃ e, e ∈ entries ∧ e.2.1 = true ∧ e.1 = j := by
  intro entries
  induction entries with
  | nil => intro removed acc j hj; exact Or.inl hj
  | cons e rest ih =>
      rcases e with ⟨idx, analyzed, cnt⟩
      intro removed acc j hj
      rw [imagePassOne] at hj
      by_cases h1 : removed ≥ t
      · rw [if_pos h1] at hj; exact Or.inl hj
      · rw [if_neg h1] at hj
        by_cases h2 : analyzed = true
        · rw [if_pos h2] at hj
          rcases ih _ _ j hj with hh | ⟨e2, he2, hfl, hidx⟩
          · rcases List.mem_append.mp hh with hh2 | hh2
            · exact Or.inl hh2
            · refine Or.inr ⟨(idx, analyzed, cnt), List.mem_cons_self _ _, h2, ?_⟩
              have hji : j = idx := by simpa using hh2
              exact hji.symm
          · exact Or.inr ⟨e2, List.mem_cons_of_mem _ he2, hfl, hidx⟩
        · rw [if_neg h2] at hj
          rcases ih _ _ j hj with hh | ⟨e2, he2, hfl, hidx⟩
          · exact Or.inl hh
          · exact Or.inr ⟨e2, List.mem_cons_of_mem _ he2, hfl, hidx⟩

theorem imagePassOne_bound (messages : List Msg) (t : Nat) :
    ∀ (entries : List (Nat × Bool × Nat)) (removed : Nat) (acc : List Nat),
      (∀ e ∈ entries, ∃ m, messages.get? e.1 = some m
        ∧ e.2.2 = count_images_in_message m) →
      (∀ e ∈ entries, e.1 ∉ acc) →
      ((entries.map Prod.fst).Pairwise (· < ·)) →
      removed ≤ selectedImageCount acc 0 messages →
      (imagePassOne t entries removed acc).1
        ≤ selectedImageCount (imagePassOne t entries removed acc).2 0 messages := by
  intro entries
  induction entries with
  | nil => intro removed acc _ _ _ hinv; exact hinv
  | cons e rest ih =>
      rcases e with ⟨idx, analyzed, cnt⟩
      intro removed acc hval hdisj hpw hinv
      have hpwc : (idx :: rest.map Prod.fst).Pairwise (· < ·) := by
        rw [List.map_cons] at hpw; exact hpw
      rw [imagePassOne]
      by_cases h1 : removed ≥ t
      · rw [if_pos h1]; exact hinv
      · rw [if_neg h1]
        by_cases h2 : analyzed = true
        · rw [if_pos h2]
          rcases hval (idx, analyzed, cnt) (List.mem_cons_self _ _) with ⟨m, hget, hcnt⟩
          have hsel : selectedImageCount (acc ++ [idx]) 0 messages
              = selectedImageCount acc 0 messages + count_images_in_message m := by
            refine selected_append_ge acc idx m messages messages 0 (Nat.zero_le idx)
              (hdisj (idx, analyzed, cnt) (List.mem_cons_self _ _)) ?_
            simpa using hget
          refine ih _ _ (fun e2 he2 => hval e2 (List.mem_cons_of_mem _ he2)) ?_
            (List.pairwise_cons.mp hpwc).2 ?_
          · intro e2 he2 hmem
            rcases List.mem_append.mp hmem with hh | hh
            · exact hdisj e2 (List.mem_cons_of_mem _ he2) hh
            · have hlt : idx < e2.1 :=
                (List.pairwise_cons.mp hpwc).1 e2.1 (List.mem_map.mpr ⟨e2, he2, rfl⟩)
              have : e2.1 = idx := by simpa using hh
              omega
          · rw [hsel]
            simp only [] at hcnt
            omega
        · rw [if_neg h2]
          exact ih _ _ (fun e2 he2 => hval e2 (List.mem_cons_of_mem _ he2))
            (fun e2 he2 => hdisj e2 (List.mem_cons_of_mem _ he2))
            (List.pairwise_cons.mp hpwc).2 hinv

theorem imagePassTwo_bound (messages : List Msg) (t : Nat) :
    ∀ (entries : List (Nat × Bool × Nat)) (removed : Nat) (acc : List Nat),
      (∀ e ∈ entries, ∃ m, messages.get? e.1 = some m
        ∧ e.2.2 = count_images_in_message m) →
      removed ≤ selectedImageCount acc 0 messages →
      (imagePassTwo t entries removed acc).1
        ≤ selectedImageCount (imagePassTwo t entries removed acc).2 0 messages := by
  intro entries
  induction entries with
  | nil => intro removed acc _ hinv; exact hinv
  | cons e rest ih =>
      rcases e with ⟨idx, analyzed, cnt⟩
      intro removed acc hval hinv
      rw [imagePassTwo]
      by_cases h1 : removed ≥ t
      · rw [if_pos h1]; exact hinv
      · rw [if_neg h1]
        by_cases h2 : analyzed = false ∧ idx ∉ acc
        · rw [if_pos h2]
          rcases hval (idx, analyzed, cnt) (List.mem_cons_self _ _) with ⟨m, hget, hcnt⟩
          have hsel : selectedImageCount (acc ++ [idx]) 0 messages
              = selectedImageCount acc 0 messages + count_images_in_message m := by
            refine selected_append_ge acc idx m messages messages 0 (Nat.zero_le idx)
              h2.2 ?_
            simpa using hget
          refine ih _ _ (fun e2 he2 => hval e2 (List.mem_cons_of_mem _ he2)) ?_
          rw [hsel]
          simp only [] at hcnt
          omega
        · rw [if_neg h2]
          exact ih _ _ (fun e2 he2 => hval e2 (List.mem_cons_of_mem _ he2)) hinv

theorem imagePassOne_cover (t : Nat) :
    ∀ (entries : List (Nat × Bool × Nat)) (removed : Nat) (acc : List Nat),
      (imagePassOne t entries removed acc).1 < t →
      ∀ e ∈ entries, e.2.1 = true → e.1 ∈ (imagePassOne t entries removed acc).2 := by
  intro entries
  induction entries with
  | nil => intro removed acc _ e he; exact absurd he (by simp)
  | cons e0 rest ih =>
      rcases e0 with ⟨idx, analyzed, cnt⟩
      intro removed acc hlt e he hfl
      rw [imagePassOne] at hlt ⊢
      by_cases h1 : removed ≥ t
      · rw [if_pos h1] at hlt
        exact absurd hlt (by omega)
      · rw [if_neg h1] at hlt ⊢
        by_cases h2 : analyzed = true
        · rw [if_pos h2] at hlt ⊢
          rcases List.mem_cons.mp he with rfl | hrest
          · exact imagePassOne_acc t rest _ _ idx (List.mem_append.mpr (Or.inr (by simp)))
          · exact ih _ _ hlt e hrest hfl
        · rw [if_neg h2] at hlt ⊢
          rcases List.mem_cons.mp he with rfl | hrest
          · exact absurd hfl (by simpa using h2)
          · exact ih _ _ hlt e hrest hfl

theorem imagePassTwo_cover (t : Nat) :
    ∀ (entries : List (Nat × Bool × Nat)) (removed : Nat) (acc : List Nat),
      (imagePassTwo t entries removed acc).1 < t →
      ∀ e ∈ entries, e.2.1 = false → e.1 ∈ (imagePassTwo t entries removed acc).2 := by
  intro entries
  induction entries with
  | nil => intro removed acc _ e he; exact absurd he (by simp)
  | cons e0 rest ih =>
      rcases e0 with ⟨idx, analyzed, cnt⟩
      intro removed acc hlt e he hfl
      rw [imagePassTwo] at hlt ⊢
      by_cases h1 : removed ≥ t
      · rw [if_pos h1] at hlt
        exact absurd hlt (by omega)
      · rw [if_neg h1] at hlt ⊢
        by_cases h2 : analyzed = false ∧ idx ∉ acc
        · rw [if_pos h2] at hlt ⊢
          rcases List.mem_cons.mp he with rfl | hrest
          · exact imagePassTwo_acc t rest _ _ idx (List.mem_append.mpr (Or.inr (by simp)))
          · exact ih _ _ hlt e hrest hfl
        · rw [if_neg h2] at hlt ⊢
          rcases List.mem_cons.mp he with rfl | hrest
          · have hidx : idx ∈ acc := by
              rcases Decidable.not_and_iff_or_not.mp h2 with hh | hh
              · exact absurd hfl (by simpa using hh)
              · simpa using hh
            exact imagePassTwo_acc t rest _ _ idx hidx
          · exact ih _ _ hlt e hrest hfl

theorem selectedImageCount_nil : ∀ (l : List Msg) (n : Nat),
    selectedImageCount [] n l = 0 := by
  intro l
  induction l with
  | nil => intro n; rfl
  | cons msg rest ih =>
      intro n
      rw [selectedImageCount, ih]
      simp

/-- The properties of the two-pass selection that the hard-ceiling claim
needs: either it selects at least `total − 10` images, or it selects every
image; whenever an unanalyzed message is selected every analyzed message is
selected; and the selection is nonempty. -/
theorem imagePruneSelection_spec (messages : List Msg)
    (h : MAX_IMAGES_PER_REQUEST < count_total_images messages) :
    (count_total_images messages - 10
        ≤ selectedImageCount (imagePruneSelection messages IMAGE_PRUNE_TARGET).2 0 messages
      ∨ selectedImageCount (imagePruneSelection messages IMAGE_PRUNE_TARGET).2 0 messages
          = count_total_images messages) ∧
    ((∃ e ∈ image_msg_indices messages, e.2.1 = false ∧
        e.1 ∈ (imagePruneSelection messages IMAGE_PRUNE_TARGET).2) →
      ∀ e ∈ image_msg_indices messages, e.2.1 = true →
        e.1 ∈ (imagePruneSelection messages IMAGE_PRUNE_TARGET).2) ∧
    (imagePruneSelection messages IMAGE_PRUNE_TARGET).2 ≠ [] := by
  have h100 : 100 < count_total_images messages := by
    rw [MAX_IMAGES_PER_REQUEST] at h; exact h
  have hval : ∀ e ∈ image_msg_indices messages,
      ∃ m, messages.get? e.1 = some m ∧ e.2.2 = count_images_in_message m := by
    intro e he
    rcases imageEntries_valid messages messages 0 e he (fun j => by rw [Nat.zero_add]) with
      ⟨m, hg, hc, _⟩
    exact ⟨m, hg, hc⟩
  have hpw := imageEntries_pairwise messages messages 0
  have hmax : (count_total_images messages - IMAGE_PRUNE_TARGET)
        ⊔ (count_total_images messages - (MAX_IMAGES_PER_REQUEST - 5))
      = count_total_images messages - 10 := by
    rw [IMAGE_PRUNE_TARGET, MAX_IMAGES_PER_REQUEST]
    have : (100:Nat) - 5 = 95 := by norm_num
    rw [this]
    rw [(rfl : (count_total_images messages - 10)
      ⊔ (count_total_images messages - 95)
      = max (count_total_images messages - 10) (count_total_images messages - 95))]
    omega
  have hsel : imagePruneSelection messages IMAGE_PRUNE_TARGET
      = if (imagePassOne (count_total_images messages - 10)
              (image_msg_indices messages) 0 []).1 < count_total_images messages - 10
            ∧ count_total_images messages > MAX_IMAGES_PER_REQUEST then
          imagePassTwo (count_total_images messages - 10) (image_msg_indices messages)
            (imagePassOne (count_total_images messages - 10)
              (image_msg_indices messages) 0 []).1
            (imagePassOne (count_total_images messages - 10)
              (image_msg_indices messages) 0 []).2
        else imagePassOne (count_total_images messages - 10)
              (image_msg_indices messages) 0 [] := by
    rw [imagePruneSelection]
    rw [if_pos h, hmax]
  have hbound1 := imagePassOne_bound messages (count_total_images messages - 10)
    (image_msg_indices messages) 0 [] hval
    (fun e _ he => absurd he (List.not_mem_nil _)) hpw (Nat.zero_le _)
  by_cases hp1 : (imagePassOne (count_total_images messages - 10)
      (image_msg_indices messages) 0 []).1 < count_total_images messages - 10
  · rw [hsel, if_pos ⟨hp1, h⟩]
    have hbound2 := imagePassTwo_bound messages (count_total_images messages - 10)
      (image_msg_indices messages)
      (imagePassOne (count_total_images messages - 10) (image_msg_indices messages) 0 []).1
      (imagePassOne (count_total_images messages - 10) (image_msg_indices messages) 0 []).2
      hval hbound1
    have hana : ∀ e ∈ image_msg_indices messages, e.2.1 = true →
        e.1 ∈ (imagePassTwo (count_total_images messages - 10) (image_msg_indices messages)
          (imagePassOne (count_total_images messages - 10)
            (image_msg_indices messages) 0 []).1
          (imagePassOne (count_total_images messages - 10)
            (image_msg_indices messages) 0 []).2).2 := by
      intro e he hfl
      exact imagePassTwo_acc _ _ _ _ _
        (imagePassOne_cover _ _ _ _ hp1 e he hfl)
    by_cases hp2 : (imagePassTwo (count_total_images messages - 10)
        (image_msg_indices messages)
        (imagePassOne (count_total_images messages - 10)
          (image_msg_indices messages) 0 []).1
        (imagePassOne (count_total_images messages - 10)
          (image_msg_indices messages) 0 []).2).1 < count_total_images messages - 10
    · -- both passes exhausted: every image-bearing message is selected
      have hcov : ∀ j m, messages.get? j = some m → 0 < count_images_in_message m →
          j ∈ (imagePassTwo (count_total_images messages - 10) (image_msg_indices messages)
            (imagePassOne (count_total_images messages - 10)
              (image_msg_indices messages) 0 []).1
            (imagePassOne (count_total_images messages - 10)
              (image_msg_indices messages) 0 []).2).2 := by
        intro j m hget hc
        have hent := imageEntries_complete messages messages 0 j m hget hc
        rw [Nat.zero_add] at hent
        cases hfl : is_image_analyzed messages j with
        | true =>
            rw [hfl] at hent
            exact hana (j, true, count_images_in_message m) hent rfl
        | false =>
            rw [hfl] at hent
            exact imagePassTwo_cover _ _ _ _ hp2 (j, false, count_images_in_message m) hent rfl
      have hall := selected_cover messages
        (imagePassTwo (count_total_images messages - 10) (image_msg_indices messages)
          (imagePassOne (count_total_images messages - 10)
            (image_msg_indices messages) 0 []).1
          (imagePassOne (count_total_images messages - 10)
            (image_msg_indices messages) 0 []).2).2 messages 0
        (fun j m hg hc => by rw [Nat.zero_add]; exact hcov j m hg hc)
      refine ⟨Or.inr hall, fun _ => hana, ?_⟩
      rcases exists_image_msg messages (by omega) with ⟨j, m, hget, hc⟩
      intro hnil
      have := hcov j m hget hc
      rw [hnil] at this
      exact absurd this (List.not_mem_nil _)
    · refine ⟨Or.inl (by omega), fun _ => hana, ?_⟩
      intro hnil
      rw [hnil, selectedImageCount_nil] at hbound2
      omega
  · rw [hsel, if_neg (fun hc => hp1 hc.1)]
    have hp1' : count_total_images messages - 10
        ≤ (imagePassOne (count_total_images messages - 10)
            (image_msg_indices messages) 0 []).1 := by omega
    refine ⟨Or.inl (by omega), ?_, ?_⟩
    · rintro ⟨e, he, hfl, hmem⟩
      rcases imagePassOne_src _ _ _ _ _ hmem with hh | ⟨e2, he2, hfl2, hidx⟩
      · exact absurd hh (List.not_mem_nil _)
      · have hnd : ((image_msg_indices messages).map Prod.fst).Nodup :=
          hpw.imp (fun hlt => Nat.ne_of_lt hlt)
        have heq : e2 = e := List.inj_on_of_nodup_map hnd he2 he hidx
        rw [heq] at hfl2
        rw [hfl] at hfl2
        exact absurd hfl2 (by simp)
    · intro hnil
      rw [hnil, selectedImageCount_nil] at hbound1
      omega

/-! ## C4: image hard ceiling and eviction priority -/

/-- **C4.** When a transcript holds more than the hard ceiling of 100 image
parts, `prune_old_images` leaves at most `100 − 5 = 95` image parts (in
fact at most 10, the soft target, or none), and no unanalyzed image message
is evicted while an analyzed image message remains unevicted: if any
unanalyzed entry is selected for eviction, every analyzed entry is. -/
theorem C4_image_hard_ceiling (messages : List Msg)
    (h : MAX_IMAGES_PER_REQUEST < count_total_images messages) :
    count_total_images (prune_old_images messages) ≤ MAX_IMAGES_PER_REQUEST - 5 ∧
    ((∃ e ∈ image_msg_indices messages, e.2.1 = false ∧
        e.1 ∈ (imagePruneSelection messages IMAGE_PRUNE_TARGET).2) →
      ∀ e ∈ image_msg_indices messages, e.2.1 = true →
        e.1 ∈ (imagePruneSelection messages IMAGE_PRUNE_TARGET).2) := by
  have h100 : 100 < count_total_images messages := by
    rw [MAX_IMAGES_PER_REQUEST] at h; exact h
  obtain ⟨hkey1, hkey2, hkey3⟩ := imagePruneSelection_spec messages h
  constructor
  · have hprune : prune_old_images messages
        = applyImagePrune (imagePruneSelection messages IMAGE_PRUNE_TARGET).2 0 messages := by
      rw [prune_old_images]
      rw [if_neg (by rw [IMAGE_PRUNE_TARGET]; omega)]
      rw [if_neg hkey3]
    rw [hprune]
    have hacct := applyImagePrune_count
      (imagePruneSelection messages IMAGE_PRUNE_TARGET).2 messages 0
    rw [MAX_IMAGES_PER_REQUEST]
    rcases hkey1 with hk | hk
    · omega
    · omega
  · exact hkey2

/-- Witness for C4: one message holding 101 unanalyzed images — everything
is evicted, far below the `95` bound. -/
theorem C4_witness :
    MAX_IMAGES_PER_REQUEST < count_total_images manyImagesTranscript ∧
      count_total_images (prune_old_images manyImagesTranscript)
        ≤ MAX_IMAGES_PER_REQUEST - 5 :=
  ⟨by decide, (C4_image_hard_ceiling manyImagesTranscript (by decide)).1⟩

/-! ## Lemmas about the compaction boundary -/

theorem assistantIdx_mem :
    ∀ (compactable : List Msg) (i x : Nat), x ∈ assistantIdxLoop i compactable →
      ∃ j m, compactable.get? j = some m ∧ m.role = "assistant"
        ∧ x = PROTECTED_MESSAGE_COUNT + (i + j) := by
  intro compactable
  induction compactable with
  | nil => intro i x hx; exact absurd hx (by simp [assistantIdxLoop])
  | cons msg rest ih =>
      intro i x hx
      rw [assistantIdxLoop] at hx
      rcases List.mem_append.mp hx with hh | hh
      · by_cases hr : msg.role = "assistant"
        · rw [if_pos hr] at hh
          rcases List.mem_singleton.mp hh with rfl
          exact ⟨0, msg, rfl, hr, by omega⟩
        · rw [if_neg hr] at hh
          exact absurd hh (by simp)
      · rcases ih (i+1) x hh with ⟨j, m, hget, hrole, hx2⟩
        refine ⟨j+1, m, by simpa using hget, hrole, by omega⟩

theorem pickStart_mem (messages : List Msg) (mk : Int) :
    ∀ (cands : List Nat) (s : Nat), pickStartLoop messages mk cands = some s → s ∈ cands := by
  intro cands
  induction cands with
  | nil => intro s hs; exact absurd hs (by rw [pickStartLoop]; simp)
  | cons c rest ih =>
      intro s hs
      rw [pickStartLoop] at hs
      by_cases hc : (estimate_total_tokens (messages.drop c) : Int) ≤ mk
      · rw [if_pos hc] at hs
        injection hs with hs
        exact hs ▸ List.mem_cons_self c rest
      · rw [if_neg hc] at hs
        exact List.mem_cons_of_mem c (ih s hs)

/-- Whenever `_find_messages_to_compact` selects a nonempty block, the block
is exactly the index range from the protected prefix up to an assistant
message at a global index `s`. -/
theorem find_shape (messages : List Msg) (t : Int)
    (h : find_messages_to_compact messages t ≠ []) :
    ∃ s m, find_messages_to_compact messages t
        = List.range' PROTECTED_MESSAGE_COUNT (s - PROTECTED_MESSAGE_COUNT)
      ∧ messages.get? s = some m ∧ m.role = "assistant"
      ∧ PROTECTED_MESSAGE_COUNT ≤ s ∧ s < messages.length := by
  rw [find_messages_to_compact] at h ⊢
  by_cases h1 : ((estimate_total_tokens (messages.take PROTECTED_MESSAGE_COUNT)
      + estimate_total_tokens (messages.drop PROTECTED_MESSAGE_COUNT) : Nat) : Int) ≤ t
  · rw [if_pos h1] at h
    exact absurd rfl h
  · rw [if_neg h1] at h ⊢
    by_cases h2 : (assistantIdxLoop 0 (messages.drop PROTECTED_MESSAGE_COUNT)).length < 2
    · rw [if_pos h2] at h
      exact absurd rfl h
    · rw [if_neg h2] at h ⊢
      have hmem_of : ∀ s, s ∈ assistantIdxLoop 0 (messages.drop PROTECTED_MESSAGE_COUNT) →
          ∃ m, messages.get? s = some m ∧ m.role = "assistant"
            ∧ PROTECTED_MESSAGE_COUNT ≤ s ∧ s < messages.length := by
        intro s hs
        rcases assistantIdx_mem _ 0 s hs with ⟨j, m, hget, hrole, hx⟩
        rw [Nat.zero_add] at hx
        have hget2 : messages.get? (PROTECTED_MESSAGE_COUNT + j) = some m := by
          rw [List.get?_eq_getElem?] at hget ⊢
          rw [← List.getElem?_drop]
          exact hget
        rw [hx]
        refine ⟨m, hget2, hrole, by omega, ?_⟩
        rcases List.get?_eq_some.mp hget2 with ⟨hlt, _⟩
        exact hlt
      cases hpick : pickStartLoop messages
          (t - (estimate_total_tokens (messages.take PROTECTED_MESSAGE_COUNT) : Int)
            - (SUMMARY_TOKEN_ESTIMATE : Int))
          (assistantIdxLoop 0 (messages.drop PROTECTED_MESSAGE_COUNT)).dropLast with
      | some s =>
          have hs := pickStart_mem _ _ _ s hpick
          rcases hmem_of s (List.dropLast_sublist _ |>.subset hs) with ⟨m, hget, hrole, hge, hlt⟩
          exact ⟨s, m, rfl, hget, hrole, hge, hlt⟩
      | none =>
          have hlen : (assistantIdxLoop 0
              (messages.drop PROTECTED_MESSAGE_COUNT)).length - 2
              < (assistantIdxLoop 0 (messages.drop PROTECTED_MESSAGE_COUNT)).length := by
            omega
          have hmem : (assistantIdxLoop 0 (messages.drop PROTECTED_MESSAGE_COUNT)).getD
              ((assistantIdxLoop 0 (messages.drop PROTECTED_MESSAGE_COUNT)).length - 2) 0
              ∈ assistantIdxLoop 0 (messages.drop PROTECTED_MESSAGE_COUNT) := by
            rw [List.getD_eq_getElem _ 0 hlen]
            exact List.getElem_mem hlen
          rcases hmem_of _ hmem with ⟨m, hget, hrole, hge, hlt⟩
          exact ⟨_, m, rfl, hget, hrole, hge, hlt⟩

/-- The `[messages[i] for i in range(P, len) if i not in compacted_set]`
comprehension with the compacted set `range(P, s)` is exactly the suffix
`messages[s:]`. -/
theorem keep_eq_drop (messages : List Msg) (s : Nat)
    (h2 : PROTECTED_MESSAGE_COUNT ≤ s) (hlen : s ≤ messages.length) :
    (List.range' PROTECTED_MESSAGE_COUNT
        (messages.length - PROTECTED_MESSAGE_COUNT)).filterMap
      (fun i => if i ∈ List.range' PROTECTED_MESSAGE_COUNT (s - PROTECTED_MESSAGE_COUNT)
        then none else messages.get? i)
      = messages.drop s := by
  have hsplit : List.range' PROTECTED_MESSAGE_COUNT (messages.length - PROTECTED_MESSAGE_COUNT)
      = List.range' PROTECTED_MESSAGE_COUNT (s - PROTECTED_MESSAGE_COUNT)
        ++ List.range' s (messages.length - s) := by
    have := List.range'_append PROTECTED_MESSAGE_COUNT (s - PROTECTED_MESSAGE_COUNT)
      (messages.length - s) 1
    rw [PROTECTED_MESSAGE_COUNT] at *
    have ha : 2 + 1 * (s - 2) = s := by omega
    have hb : messages.length - s + (s - 2) = messages.length - 2 := by omega
    rw [ha, hb] at this
    exact this.symm
  rw [hsplit, List.filterMap_append]
  have hfirst : (List.range' PROTECTED_MESSAGE_COUNT (s - PROTECTED_MESSAGE_COUNT)).filterMap
      (fun i => if i ∈ List.range' PROTECTED_MESSAGE_COUNT (s - PROTECTED_MESSAGE_COUNT)
        then none else messages.get? i) = [] := by
    apply List.filterMap_eq_nil.mpr
    intro a ha
    rw [if_pos ha]
  have hsecond : (List.range' s (messages.length - s)).filterMap
      (fun i => if i ∈ List.range' PROTECTED_MESSAGE_COUNT (s - PROTECTED_MESSAGE_COUNT)
        then none else messages.get? i)
      = (List.range' s (messages.length - s)).filterMap (fun i => messages.get? i) := by
    apply List.filterMap_congr
    intro a ha
    rcases List.mem_range'_1.mp ha with ⟨hge, _⟩
    have : a ∉ List.range' PROTECTED_MESSAGE_COUNT (s - PROTECTED_MESSAGE_COUNT) := by
      intro hmem
      rcases List.mem_range'_1.mp hmem with ⟨_, hup⟩
      rw [PROTECTED_MESSAGE_COUNT] at *
      omega
    rw [if_neg this]
  rw [hfirst, hsecond, List.nil_append]
  clear hsplit
  have hgen : ∀ (n start : Nat), start + n = messages.length →
      (List.range' start n).filterMap (fun i => messages.get? i) = messages.drop start := by
    intro n
    induction n with
    | zero =>
        intro start hstart
        rw [List.drop_eq_nil_of_le (by omega)]
        rfl
    | succ n ihn =>
        intro start hstart
        have hslt : start < messages.length := by omega
        rw [List.range', List.filterMap_cons]
        rw [List.get?_eq_get hslt]
        simp only []
        rw [ihn (start+1) (by omega)]
        rw [List.drop_eq_get_cons hslt]
  exact hgen (messages.length - s) s (by omega)

theorem repairMsg_nontool (valid : List String) (m : Msg) (h : m.role ≠ "tool") :
    repairMsg valid m = some m := by
  rw [repairMsg, if_neg h]

/-! ## C1: the kept suffix starts on an assistant message -/

/-- **C1.** Whenever `run_compaction` actually changes the transcript, its
output decomposes as a prefix, then the synthetic user message wrapping the
summary, then a message of role `"assistant"` (the first message of the kept
suffix), then the rest. -/
theorem C1_kept_suffix_starts_assistant (llm : Except Unit String) (messages : List Msg)
    (system_prompt : String) (model : Option String) (target_tokens : Option Int)
    (h : run_compaction llm messages system_prompt model target_tokens ≠ messages) :
    ∃ pre summary m post,
      run_compaction llm messages system_prompt model target_tokens
          = pre ++ summaryMsg summary :: m :: post
        ∧ m.role = "assistant" := by
  rw [run_compaction] at h ⊢
  by_cases hids : find_messages_to_compact messages
      (target_tokens.getD DEFAULT_COMPACTION_TARGET) = []
  · rw [if_pos hids] at h
    exact absurd rfl h
  · rw [if_neg hids] at h ⊢
    cases llm with
    | error e => exact absurd rfl h
    | ok summary =>
        by_cases hsum : summary = ""
        · subst hsum
          exact absurd rfl h
        · simp only [] at h ⊢
          rw [if_neg hsum] at h ⊢
          rcases find_shape messages (target_tokens.getD DEFAULT_COMPACTION_TARGET) hids with
            ⟨s, m, hfind, hget, hrole, hge, hlt⟩
          have hkeep : (List.range' PROTECTED_MESSAGE_COUNT
              (messages.length - PROTECTED_MESSAGE_COUNT)).filterMap
              (fun i => if i ∈ find_messages_to_compact messages
                  (target_tokens.getD DEFAULT_COMPACTION_TARGET)
                then none else messages.get? i)
              = messages.drop s := by
            rw [hfind]
            exact keep_eq_drop messages s hge (by omega)
          rw [hkeep]
          have hdrop : messages.drop s = m :: messages.drop (s+1) := by
            rcases List.get?_eq_some.mp hget with ⟨hl, hv⟩
            rw [List.drop_eq_get_cons hl, hv]
          rw [hdrop]
          rw [remove_orphaned_tool_messages]
          rw [List.filterMap_append, List.filterMap_append]
          have hsumMsg : repairMsg (collect_valid_tool_call_ids
              (messages.take PROTECTED_MESSAGE_COUNT ++ [summaryMsg summary]
                ++ m :: messages.drop (s+1))) (summaryMsg summary)
              = some (summaryMsg summary) :=
            repairMsg_nontool _ _ (by exact (by decide : ("user":String) ≠ "tool"))
          have hmMsg : repairMsg (collect_valid_tool_call_ids
              (messages.take PROTECTED_MESSAGE_COUNT ++ [summaryMsg summary]
                ++ m :: messages.drop (s+1))) m
              = some m :=
            repairMsg_nontool _ _ (by rw [hrole]; decide)
          simp only [List.filterMap_cons, List.filterMap_nil]
          rw [hsumMsg, hmMsg]
          refine ⟨(messages.take PROTECTED_MESSAGE_COUNT).filterMap (repairMsg
              (collect_valid_tool_call_ids (messages.take PROTECTED_MESSAGE_COUNT
                ++ [summaryMsg summary] ++ m :: messages.drop (s+1)))), summary, m,
            (messages.drop (s+1)).filterMap (repairMsg
              (collect_valid_tool_call_ids (messages.take PROTECTED_MESSAGE_COUNT
                ++ [summaryMsg summary] ++ m :: messages.drop (s+1)))), ?_, hrole⟩
          simp

/-- Witness for C1 at a concrete transcript, target 0, and a successful
summarization: compaction happens and the kept suffix starts on an
assistant message. -/
theorem C1_witness :
    run_compaction (Except.ok "S") compactionWitnessTranscript "sys" none (some 0)
        ≠ compactionWitnessTranscript ∧
      ∃ pre summary m post,
        run_compaction (Except.ok "S") compactionWitnessTranscript "sys" none (some 0)
            = pre ++ summaryMsg summary :: m :: post
          ∧ m.role = "assistant" :=
  ⟨by decide,
    C1_kept_suffix_starts_assistant (Except.ok "S") compactionWitnessTranscript
      "sys" none (some 0) (by decide)⟩

/-! ## C10: the overflow threshold at the exact boundary -/

theorem bigText_length : bigText.length = 403120 := by
  have h1 : bigText.length = bigText.data.length := rfl
  have h2 : bigText.data = List.replicate 403120 'a' := rfl
  rw [h1, h2, List.length_replicate]

theorem bigText_tokens : estimate_tokens bigText = 100780 := by
  rw [estimate_tokens, bigText_length]
  decide

theorem contentTokens_str (s : String) : contentTokens (Content.str s) = estimate_tokens s := rfl

theorem emt_no_tool_calls (r : String) (c : Content) :
    estimate_message_tokens { role := r, content := c } = contentTokens c + 4 := rfl

theorem bigMsg_tokens :
    estimate_message_tokens { role := "assistant", content := Content.str bigText } = 100784 := by
  rw [emt_no_tool_calls, contentTokens_str, bigText_tokens]

theorem smallMsg_tokens (r : String) : estimate_message_tokens { role := r } = 4 := rfl

theorem boundary_tokens : estimate_total_tokens boundaryTranscript = 100800 := by
  rw [boundaryTranscript, estimate_total_tokens]
  simp only [List.map_cons, List.map_nil, List.sum_cons, List.sum_nil, bigMsg_tokens,
    smallMsg_tokens]
  norm_num

/-- **C10.** The overflow and image thresholds are exclusive at the boundary:
for every transcript whose estimated total token count equals
`usable × compactionFraction` exactly (`168000 × 3/5 = 100800`; the IEEE
product `168000 * float(0.6)` also rounds to exactly `100800.0`, see
`usable_times_threshold_nearest`) and whose image-part count is at most the
soft target of 10, `manage_context` with the force-compaction flag unset
returns its input list unchanged: `is_overflow` uses strict greater-than and
image pruning is a no-op at or below the target. -/
theorem C10_boundary_unchanged (messages : List Msg) (system_prompt : String)
    (llm : Except Unit String)
    (himg : count_total_images messages ≤ IMAGE_PRUNE_TARGET)
    (htok : (estimate_total_tokens messages : ℚ) = (get_usable_context : ℚ) * (3 / 5)) :
    manage_context messages system_prompt llm false = messages := by
  have husable : (get_usable_context : ℚ) * (3 / 5) = 100800 := by
    norm_num [get_usable_context, MODEL_CONTEXT_LIMIT, OUTPUT_TOKEN_MAX]
  have heq : estimate_total_tokens messages = 100800 := by
    rw [husable] at htok
    exact_mod_cast htok
  have hov : is_overflow (estimate_total_tokens messages) = false := by
    cases hcase : is_overflow (estimate_total_tokens messages) with
    | false => rfl
    | true =>
        have := (is_overflow_iff _).mp hcase
        omega
  rw [manage_context]
  rw [if_neg (by omega : ¬ count_total_images messages > IMAGE_PRUNE_TARGET)]
  rw [if_pos ⟨rfl, hov⟩]

/-- Witness for C10 at a concrete transcript sitting exactly on the boundary:
five messages (one of them a 403120-character assistant message) estimating to
exactly `100800 = 168000 × 3/5` tokens, zero images, passed through
`manage_context` unchanged. -/
theorem C10_witness :
    manage_context boundaryTranscript "" (Except.ok "S") false = boundaryTranscript :=
  C10_boundary_unchanged boundaryTranscript "" (Except.ok "S") (by decide)
    (by rw [boundary_tokens]
        norm_num [get_usable_context, MODEL_CONTEXT_LIMIT, OUTPUT_TOKEN_MAX])

end TopAgent
